import Mathlib

set_option maxRecDepth 100000
set_option maxHeartbeats 1000000

/-
Verification of src/main.py, an EPUB converter for Traditional Chinese
vertical typesetting.  Python strings are modeled as Lean String / List Char.
Each Python re.sub call is modeled by an explicit left-to-right scanner with
leftmost-match semantics: at every position the specific regex is tried
(greedy classes become dropWhile, which is equivalent here because every
character class in the patterns excludes the character that must follow it);
on success the match is replaced and scanning resumes after the match, on
failure the scanner advances one character.  The scanners use structural
fuel recursion (fuel = length of the input, always sufficient) so that they
evaluate inside the kernel; fuel-stability lemmas recover the unfueled
step equations.
-/

/-- ASCII fragment of the Python regex class backslash-s and of the
whitespace set of str.strip(): space, tab, newline, carriage return,
vertical tab, form feed.  (Python also accepts some non-ASCII whitespace;
all inputs considered here are covered by the ASCII fragment.) -/
def pyIsSpace (c : Char) : Bool :=
  c == ' ' || c == '\t' || c == '\n' || c == '\r' || c == '\x0b' || c == '\x0c'

/-- Character class of the leading part of the strip_css_font_family regex:
space or tab. -/
def isSpTab (c : Char) : Bool := c == ' ' || c == '\t'

/-- The literal searched by both font-family regexes of main.py. -/
def ffChars : List Char := "font-family".data

/-- Drop a trailing run of characters satisfying p (used for the trailing
end of str.strip()). -/
def eraseTrailing (p : Char → Bool) (l : List Char) : List Char :=
  (l.reverse.dropWhile p).reverse

/-- Python str.strip() with no arguments on a list of characters. -/
def pyStripList (l : List Char) : List Char :=
  eraseTrailing pyIsSpace (l.dropWhile pyIsSpace)

/-- Consumption of the optional newline right after the semicolon
(the trailing backslash-n? of the strip_css_font_family regex; en is false
for the inline-style regex, which has no such part). -/
def afterSemi : Bool → List Char → List Char
  | false, b => b
  | true, [] => []
  | true, e :: r => if e == '\n' then r else e :: r

/-- Step of the font-family match after the greedy [^;]* value: the input is
what remains once the value is dropped, so it is empty (end of string) or
starts with a semicolon.  ns: the semicolon is mandatory
(strip_css_font_family); en: a newline after it is consumed. -/
def ffSemiStep (ns en : Bool) : List Char → Option (List Char)
  | [] => if ns then none else some []
  | d :: r5 =>
    if d == ';' then some (afterSemi en r5)
    else if ns then none else some (d :: r5)

/-- Step of the font-family match after the literal and the greedy
backslash-s* following it: a colon must come next, then the [^;]* value. -/
def ffColonStep (ns en : Bool) : List Char → Option (List Char)
  | [] => none
  | c :: r3 =>
    if c == ':' then ffSemiStep ns en (r3.dropWhile (fun x => !(x == ';')))
    else none

/-- One attempted match, at the start of s, of the shared shape of the two
font-family regexes of main.py:

  lead* font-family backslash-s* : [^;]* ;(optional unless ns) newline(only when en)

with lead the leading character class (backslash-s for the inline-style
regex of _strip_font_family_from_style, space/tab for strip_css_font_family).
Returns the remainder of the string after the match. -/
def tryMatchFF (lead : Char → Bool) (ns en : Bool) (s : List Char) :
    Option (List Char) :=
  if List.isPrefixOf ffChars (s.dropWhile lead) then
    ffColonStep ns en (((s.dropWhile lead).drop 11).dropWhile pyIsSpace)
  else none

/-- Fueled global-substitution scanner for tryMatchFF (Python re.sub with
empty replacement): try a match at the current position; on success resume
after the match, otherwise emit one character and advance. -/
def subFFgo (lead : Char → Bool) (ns en : Bool) : Nat → List Char → List Char
  | 0, s => s
  | _ + 1, [] => []
  | f + 1, c :: t =>
    match tryMatchFF lead ns en (c :: t) with
    | some r => subFFgo lead ns en f r
    | none => c :: subFFgo lead ns en f t

/-- Global substitution of the font-family regex shape by the empty string;
fuel = length is always sufficient since a match consumes at least the
font-family literal. -/
def subFF (lead : Char → Bool) (ns en : Bool) (s : List Char) : List Char :=
  subFFgo lead ns en s.length s

/-- List-level body of _strip_font_family_from_style of main.py:
re.sub of backslash-s* font-family backslash-s* : [^;]* ;? by the empty
string. -/
def stripStyleData (l : List Char) : List Char := subFF pyIsSpace false false l

/-- List-level body of strip_css_font_family of main.py:
re.sub of [ tab]* font-family backslash-s* : [^;]* ; newline? by the empty
string. -/
def stripCssData (l : List Char) : List Char := subFF isSpTab true true l

/-- Model of _strip_font_family_from_style of main.py: remove the
font-family declarations from an inline style value, then strip(). -/
def strip_font_family_from_style (s : String) : String :=
  String.mk (pyStripList (stripStyleData s.data))

/-- Model of strip_css_font_family of main.py. -/
def strip_css_font_family (s : String) : String :=
  String.mk (stripCssData s.data)

/-- The fifteen lines of the FONT_FACE_CSS constant of main.py. -/
def fontFaceLines : List String := [
  "@font-face \x7b font-family: \"宋體繁\"; src: local(\"STSongTC-Light\"), local(\"STSongTC\"); \x7d",
  "@font-face \x7b font-family: \"宋體繁\"; font-weight: bold; src: local(\"STSongTC-Bold\"); \x7d",
  "@font-face \x7b font-family: \"黑體繁\"; src: local(\"STHeitiTC-Light\"), local(\"STHeitiTC\"); \x7d",
  "@font-face \x7b font-family: \"黑體繁\"; font-weight: bold; src: local(\"STHeitiTC-Medium\"); \x7d",
  "@font-face \x7b font-family: \"楷體繁\"; src: local(\"STKaitiTC\"), local(\"STKaitiTC-Regular\"); \x7d",
  "@font-face \x7b font-family: \"楷體繁\"; font-weight: bold; src: local(\"STKaitiTC-Bold\"); \x7d",
  "@font-face \x7b font-family: \"圓體繁\"; src: local(\"STYuanTC-Light\"), local(\"STYuanTC\"); \x7d",
  "@font-face \x7b font-family: \"圓體繁\"; font-weight: bold; src: local(\"STYuanTC-Bold\"); \x7d",
  "@font-face \x7b font-family: \"宋體\"; src: local(\"STSong\"), local(\"STSong-Regular\"); \x7d",
  "@font-face \x7b font-family: \"黑體\"; src: local(\"STHeiti\"), local(\"STHeiti-Regular\"); \x7d",
  "@font-face \x7b font-family: \"楷體\"; src: local(\"STKai\"), local(\"STKai-Regular\"); \x7d",
  "@font-face \x7b font-family: \"圓體\"; src: local(\"STYuan\"), local(\"STYuan-Regular\"); \x7d",
  "@font-face \x7b font-family: \"TBMincho\"; src: local(\"TBMincho-Regular\"); \x7d",
  "@font-face \x7b font-family: \"TBGothic\"; src: local(\"TBGothic-Regular\"); \x7d",
  "@font-face \x7b font-family: \"TsukushiMincho\"; src: local(\"TsukushiMincho-Regular\"); \x7d"]

/-- The FONT_FACE_CSS constant of main.py (every line newline-terminated). -/
def FONT_FACE_CSS : String := String.join (fontFaceLines.map (fun l => l ++ "\n"))

/-- The EXTRA_CSS constant of main.py. -/
def EXTRA_CSS : String :=
  "body \x7b\n  writing-mode: vertical-rl;\n  -webkit-writing-mode: vertical-rl;\n  -epub-writing-mode: vertical-rl;\n\x7d\nbody, p \x7b\n  font-family: \"宋體繁\";\n\x7d\nh1, h2, h3, h4, h5, h6 \x7b\n  font-family: \"黑體繁\";\n\x7d\nblockquote, blockquote p \x7b\n  font-family: \"楷體繁\";\n\x7d\n"

/-- Model of modify_css of main.py. -/
def modify_css (content : String) : String :=
  FONT_FACE_CSS ++ "\n" ++ strip_css_font_family content ++ "\n" ++ EXTRA_CSS

/-- ASCII fragment of the Python regex class backslash-w:
letters, digits, underscore. -/
def isWordChar (c : Char) : Bool := c.isAlpha || c.isDigit || c == '_'

/-- The tag-name tail class of the start-tag regex of
strip_body_inline_fonts: [backslash-w : -]. -/
def isTagChar (c : Char) : Bool := isWordChar c || c == ':' || c == '-'

/-- Double quote. -/
def dquoteC : Char := Char.ofNat 34

/-- Single quote. -/
def squoteC : Char := Char.ofNat 39

/-- The quote alternatives of the inner style regex. -/
def quoteChar (c : Char) : Bool := c == dquoteC || c == squoteC

/-- The literal of the inner style regex of strip_body_inline_fonts. -/
def styleChars : List Char := "style=".data

/-- Boolean substring test (the Python expression: literal in attrs). -/
def hasSeq (pat : List Char) : List Char → Bool
  | [] => List.isPrefixOf pat []
  | c :: rest => List.isPrefixOf pat (c :: rest) || hasSeq pat rest

/-- Python tag_name.rsplit(colon, 1)[-1]: the part after the last colon. -/
def localPart (nm : List Char) : List Char :=
  (nm.reverse.takeWhile (fun c => !(c == ':'))).reverse

/-- HEADING_RE of main.py: re.match of caret h[1-6] dollar, IGNORECASE. -/
def isHeadingName : List Char → Bool
  | [c1, c2] => (c1 == 'h' || c1 == 'H') && ('1' ≤ c2 && c2 ≤ '6')
  | _ => false

/-- Step of the style-attribute match after the quoted value was scanned:
the lazy dot-star accepts no newline before the closing quote, and the
closing quote must exist. -/
def styleValueStep (q : Char) (v : List Char) :
    List Char → Option (Char × List Char × List Char)
  | [] => none
  | _ :: rem => if v.contains '\n' then none else some (q, v, rem)

/-- Step of the style-attribute match after the literal: a quote character,
then the lazy value up to the first occurrence of the same quote. -/
def styleQuoteStep : List Char → Option (Char × List Char × List Char)
  | [] => none
  | q :: t2 =>
    if quoteChar q then
      styleValueStep q (t2.takeWhile (fun c => !(c == q)))
        (t2.dropWhile (fun c => !(c == q)))
    else none

/-- One attempted match, at the start of s, of the inner regex
style=(quote)(lazy value)(same quote) of strip_body_inline_fonts.
Returns the quote, the value and the remainder after the match. -/
def tryStyleMatch (s : List Char) : Option (Char × List Char × List Char) :=
  if List.isPrefixOf styleChars s then styleQuoteStep (s.drop 6) else none

/-- The _fix_style replacement on an already stripped value. -/
def fixStyleVal (q : Char) (nv : List Char) : List Char :=
  if nv.isEmpty then [] else styleChars ++ q :: (nv ++ [q])

/-- The _fix_style replacement of main.py: strip the font-family
declarations from the value; drop the whole attribute when nothing is
left, else rebuild style=(quote)value(quote). -/
def fixStyle (q : Char) (v : List Char) : List Char :=
  fixStyleVal q (pyStripList (stripStyleData v))

/-- Fueled scanner of the inner re.sub over the attribute text: replace
every style=(quote)...(quote) match by its _fix_style image. -/
def subStyleGo : Nat → List Char → List Char
  | 0, s => s
  | _ + 1, [] => []
  | f + 1, c :: t =>
    match tryStyleMatch (c :: t) with
    | some (q, v, rem) => fixStyle q v ++ subStyleGo f rem
    | none => c :: subStyleGo f t

/-- The inner re.sub of strip_body_inline_fonts over the attribute text. -/
def subStyleAttr (l : List Char) : List Char := subStyleGo l.length l

/-- Fueled scanner of re.sub of two-or-more spaces by one space
(the pattern: space space +). -/
def collapseGo : Nat → List Char → List Char
  | 0, s => s
  | _ + 1, [] => []
  | f + 1, c :: t =>
    if c == ' ' then
      match t with
      | [] => [c]
      | d :: t2 =>
        if d == ' ' then ' ' :: collapseGo f (t2.dropWhile (fun x => x == ' '))
        else c :: collapseGo f t
    else c :: collapseGo f t

/-- The space-run collapse re.sub of strip_body_inline_fonts. -/
def collapseSpaces (l : List Char) : List Char := collapseGo l.length l

/-- End of the attribute part of the start-tag regex: the greedy [ caret gt ]*
was already scanned, so a gt must be next. -/
def matchAttrsEnd (nm attrs : List Char) :
    List Char → Option (List Char × List Char × Bool × List Char)
  | [] => none
  | e :: rem => if e == '>' then some (nm, attrs, false, rem) else none

/-- End of a slash-closed tag without attributes: a gt must follow the
slash. -/
def matchSlashEnd (nm : List Char) :
    List Char → Option (List Char × List Char × Bool × List Char)
  | [] => none
  | e :: rem => if e == '>' then some (nm, [], true, rem) else none

/-- After the tag name: either the optional whitespace-led attribute group
(greedy up to the closing gt, which must exist), or directly gt, or a
self-closing slash followed by gt.  Anything else fails the tag pattern. -/
def matchAfterName (nm : List Char) :
    List Char → Option (List Char × List Char × Bool × List Char)
  | [] => none
  | d :: r3 =>
    if pyIsSpace d then
      matchAttrsEnd nm (d :: r3.takeWhile (fun x => !(x == '>')))
        (r3.dropWhile (fun x => !(x == '>')))
    else if d == '>' then some (nm, [], false, r3)
    else if d == '/' then matchSlashEnd nm r3
    else none

/-- One attempted match of the start-tag regex of strip_body_inline_fonts
at a position right after a lt character: an ASCII letter, the greedy
tag-name tail, then the attribute part.  Returns the tag name, the
attribute text (group 2, empty when absent), whether the bare slash form
matched, and the remainder after the gt. -/
def matchTag : List Char → Option (List Char × List Char × Bool × List Char)
  | [] => none
  | c :: rest =>
    if c.isAlpha then
      matchAfterName (c :: rest.takeWhile isTagChar) (rest.dropWhile isTagChar)
    else none

/-- Reconstruction of the matched text (group 0) of the start-tag regex. -/
def rawTag (nm attrs : List Char) (sl : Bool) : List Char :=
  '<' :: (nm ++ attrs ++ (if sl then ['/'] else []) ++ ['>'])

/-- The _process_tag replacement of main.py: headings unchanged, tags whose
attribute text has no font-family unchanged, otherwise the style attributes
are rewritten and space runs collapsed. -/
def processTag (nm attrs : List Char) (sl : Bool) : List Char :=
  if isHeadingName (localPart nm) then rawTag nm attrs sl
  else if !(hasSeq ffChars attrs) then rawTag nm attrs sl
  else '<' :: (nm ++ collapseSpaces (subStyleAttr attrs) ++ ['>'])

/-- Fueled scanner of the outer re.sub of strip_body_inline_fonts: at a lt
character try the start-tag pattern; on success emit the processed tag and
resume after the gt, otherwise pass the character through. -/
def scanTagsGo : Nat → List Char → List Char
  | 0, s => s
  | _ + 1, [] => []
  | f + 1, c :: rest =>
    if c == '<' then
      match matchTag rest with
      | some (nm, attrs, sl, rem) => processTag nm attrs sl ++ scanTagsGo f rem
      | none => c :: scanTagsGo f rest
    else c :: scanTagsGo f rest

/-- The outer re.sub of strip_body_inline_fonts on a list of characters. -/
def scanTags (l : List Char) : List Char := scanTagsGo l.length l

/-- Model of strip_body_inline_fonts of main.py. -/
def strip_body_inline_fonts (s : String) : String := String.mk (scanTags s.data)

/- Model of a parsed ElementTree element: tag (expanded Clark notation for
namespaced tags, as ElementTree stores it), attributes in insertion order,
text, children.  The children are a mutually defined forest so that
recursion over the tree stays structural. -/
mutual
inductive XmlE : Type where
  | mk : String → List (String × String) → Option String → XmlF → XmlE
inductive XmlF : Type where
  | nil : XmlF
  | cons : XmlE → XmlF → XmlF
end

def XmlE.tag : XmlE → String
  | .mk t _ _ _ => t

def XmlE.attrs : XmlE → List (String × String)
  | .mk _ a _ _ => a

def XmlE.text : XmlE → Option String
  | .mk _ _ tx _ => tx

def XmlE.children : XmlE → XmlF
  | .mk _ _ _ cs => cs

def XmlF.toList : XmlF → List XmlE
  | .nil => []
  | .cons x r => x :: XmlF.toList r

def XmlF.ofList : List XmlE → XmlF
  | [] => .nil
  | x :: xs => .cons x (XmlF.ofList xs)

def XmlF.app : XmlF → XmlF → XmlF
  | .nil, r => r
  | .cons x l, r => .cons x (XmlF.app l r)

/-- ElementTree attrib lookup (Element.get). -/
def getAttr (k : String) : List (String × String) → Option String
  | [] => none
  | (k2, v2) :: rest => if k2 == k then some v2 else getAttr k rest

/-- ElementTree Element.set on the attrib dict: replace the value in place,
or append the new key at the end. -/
def setA (k v : String) : List (String × String) → List (String × String)
  | [] => [(k, v)]
  | (k2, v2) :: rest => if k2 == k then (k, v) :: rest else (k2, v2) :: setA k v rest

def XmlE.setAttr (k v : String) : XmlE → XmlE
  | .mk t a tx cs => .mk t (setA k v a) tx cs

def XmlE.setText (s : String) : XmlE → XmlE
  | .mk t a _ cs => .mk t a (some s) cs

/-- Replace the first forest element satisfying p by its f-image (the
find-then-mutate-in-place pattern of the ElementTree code); none when no
element satisfies p. -/
def updF (p : XmlE → Bool) (f : XmlE → XmlE) : XmlF → Option XmlF
  | .nil => none
  | .cons x xs =>
    if p x then some (.cons (f x) xs)
    else (updF p f xs).map (fun l => .cons x l)

def opfNS : String := "http://www.idpf.org/2007/opf"

def dcNS : String := "http://purl.org/dc/elements/1.1/"

def containerNS : String := "urn:oasis:names:tc:opendocument:xmlns:container"

/-- Clark-notation expanded tag name. -/
def qn (ns nm : String) : String := "\x7b" ++ ns ++ "\x7d" ++ nm

def pMdOpf (x : XmlE) : Bool := x.tag == qn opfNS "metadata"

def pMdBare (x : XmlE) : Bool := x.tag == "metadata"

def pLang (x : XmlE) : Bool := x.tag == qn dcNS "language"

def pOpfPW (x : XmlE) : Bool :=
  x.tag == qn opfNS "meta" && (getAttr "name" x.attrs == some "primary-writing-mode")

def pBarePW (x : XmlE) : Bool :=
  x.tag == "meta" && (getAttr "name" x.attrs == some "primary-writing-mode")

def pSpineOpf (x : XmlE) : Bool := x.tag == qn opfNS "spine"

def pSpineBare (x : XmlE) : Bool := x.tag == "spine"

/-- The dc:language element created by SubElement and the text assignment. -/
def newLangElem : XmlE := .mk (qn dcNS "language") [] (some "zh-tw") .nil

/-- The bare meta element created when no writing-mode meta exists. -/
def newMetaElem : XmlE :=
  .mk "meta" [("name", "primary-writing-mode"), ("content", "vertical-rl")] none .nil

/-- The language mutation of modify_opf on the metadata children: set the
text of the first dc:language to zh-tw, or append a new one. -/
def langStep (cs : XmlF) : XmlF :=
  match updF pLang (XmlE.setText "zh-tw") cs with
  | some l => l
  | none => cs.app (.cons newLangElem .nil)

/-- The writing-mode mutation of modify_opf on the metadata children: set
the content of the first namespaced meta named primary-writing-mode, else
of the first bare one, else append a new bare meta. -/
def metaStep (cs : XmlF) : XmlF :=
  match updF pOpfPW (XmlE.setAttr "content" "vertical-rl") cs with
  | some l => l
  | none =>
    match updF pBarePW (XmlE.setAttr "content" "vertical-rl") cs with
    | some l => l
    | none => cs.app (.cons newMetaElem .nil)

/-- The in-place mutation of the located metadata element. -/
def fixMetadata : XmlE → XmlE
  | .mk t a tx cs => .mk t a tx (metaStep (langStep cs))

/-- The spine mutation of modify_opf on the root children: set
page-progression-direction to rtl on the first namespaced spine, else on
the first bare spine, else nothing. -/
def spineStep (cs : XmlF) : XmlF :=
  match updF pSpineOpf (XmlE.setAttr "page-progression-direction" "rtl") cs with
  | some l => l
  | none =>
    match updF pSpineBare (XmlE.setAttr "page-progression-direction" "rtl") cs with
    | some l => l
    | none => cs

/-- Model of modify_opf of main.py at the ElementTree level (ET.fromstring
and ET.tostring abstracted away): mutate the first namespaced metadata
child, else the first bare one, else raise ValueError; then fix the spine. -/
def modify_opf : XmlE → Except String XmlE
  | .mk t a tx cs =>
    match updF pMdOpf fixMetadata cs with
    | some cs1 => .ok (.mk t a tx (spineStep cs1))
    | none =>
      match updF pMdBare fixMetadata cs with
      | some cs1 => .ok (.mk t a tx (spineStep cs1))
      | none => .error "No <metadata> element found in OPF file"

/-- All elements of a forest together with their descendants, in document
order (the ElementTree descendant pattern dot-slash-slash). -/
def descF : XmlF → List XmlE
  | .nil => []
  | .cons (XmlE.mk t a tx cs) r => XmlE.mk t a tx cs :: (descF cs ++ descF r)

def descendantsAll (cs : XmlF) : List XmlE := descF cs

/-- Python str.endswith on the model strings. -/
def endsWithS (suf s : String) : Bool := List.isSuffixOf suf.data s.data

/-- The rootfile loop of find_opf_path: over all descendant rootfile
elements of the container document in document order, the first full-path
attribute value that is truthy and ends in .opf. -/
def rootfilesFirst (root : XmlE) : Option String :=
  ((descendantsAll root.children).filter
      (fun rf => rf.tag == qn containerNS "rootfile")).findSome?
    (fun rf =>
      match getAttr "full-path" rf.attrs with
      | some p => if !(p == "") && endsWithS ".opf" p then some p else none
      | none => none)

/-- An archive entry as read from the input zip: name, compression method
of its ZipInfo, and its decoded text content (the model works at text
level). -/
structure ZEntry where
  name : String
  compress : Nat
  data : String

/-- zipfile.ZIP_STORED. -/
def ZIP_STORED : Nat := 0

/-- zipfile read by entry name. -/
def readEntry (entries : List ZEntry) (nm : String) : Option String :=
  (entries.find? (fun e => e.name == nm)).map ZEntry.data

/-- The container tier of find_opf_path: when META-INF/container.xml is
among the entry names, parse it and take the first matching rootfile. -/
def containerLookup (parse : String → XmlE) (entries : List ZEntry) : Option String :=
  if (entries.map ZEntry.name).contains "META-INF/container.xml" then
    match readEntry entries "META-INF/container.xml" with
    | some d => rootfilesFirst (parse d)
    | none => none
  else none

/-- Model of find_opf_path of main.py: container tier first, then the scan
of all entry names for the first one ending in .opf, else none. -/
def find_opf_path (parse : String → XmlE) (entries : List ZEntry) : Option String :=
  match containerLookup parse entries with
  | some p => some p
  | none => (entries.map ZEntry.name).find? (fun n => endsWithS ".opf" n)

/-- Python str.lower on the model strings (ASCII fragment). -/
def lowerS (s : String) : String := String.mk (s.data.map Char.toLower)

/-- The css pass of process_epub: modify_css on every entry whose
lowercased name ends in .css. -/
def cssPass (l : List ZEntry) : List ZEntry :=
  l.map (fun e => if endsWithS ".css" (lowerS e.name)
    then ZEntry.mk e.name e.compress (modify_css e.data) else e)

def isMarkupName (n : String) : Bool :=
  endsWithS ".xhtml" (lowerS n) || endsWithS ".html" (lowerS n) ||
    endsWithS ".htm" (lowerS n)

/-- The markup pass of process_epub: strip_body_inline_fonts on every
entry whose lowercased name ends in .xhtml, .html or .htm. -/
def xhtmlPass (l : List ZEntry) : List ZEntry :=
  l.map (fun e => if isMarkupName e.name
    then ZEntry.mk e.name e.compress (strip_body_inline_fonts e.data) else e)

/-- The descriptor step of process_epub: replace the data of the entry
named p by the serialization of the modify_opf result (ser stands for the
XML declaration plus ET.tostring); a modify_opf error propagates.  Entry
names are unique in an archive, so at most one entry is affected. -/
def opfPass (parse : String → XmlE) (ser : XmlE → String) (p : String) :
    List ZEntry → Except String (List ZEntry)
  | [] => .ok []
  | e :: rest =>
    if e.name == p then
      match modify_opf (parse e.data) with
      | .ok t =>
        match opfPass parse ser p rest with
        | .ok l => .ok (ZEntry.mk e.name e.compress (ser t) :: l)
        | .error msg => .error msg
      | .error msg => .error msg
    else
      match opfPass parse ser p rest with
      | .ok l => .ok (e :: l)
      | .error msg => .error msg

/-- The write phase of process_epub: the entry named mimetype, when
present, is popped and written first with ZIP_STORED; the remaining
entries follow in order, each with its own compression from its ZipInfo. -/
def writeOut (l : List ZEntry) : List (String × Nat × String) :=
  if (l.map ZEntry.name).contains "mimetype" then
    match l.find? (fun e => e.name == "mimetype") with
    | some m => ("mimetype", ZIP_STORED, m.data) ::
        (l.filter (fun e => !(e.name == "mimetype"))).map
          (fun e => (e.name, e.compress, e.data))
    | none => l.map (fun e => (e.name, e.compress, e.data))
  else l.map (fun e => (e.name, e.compress, e.data))

/-- Model of process_epub of main.py: the write list of the output archive
(name, compression, data), or the propagated error, in which case no
output archive is produced (the ValueError is raised before the output
zip is opened). -/
def process_epub (parse : String → XmlE) (ser : XmlE → String) (z : List ZEntry) :
    Except String (List (String × Nat × String)) :=
  match find_opf_path parse z with
  | some p =>
    if ((xhtmlPass (cssPass z)).map ZEntry.name).contains p then
      match opfPass parse ser p (xhtmlPass (cssPass z)) with
      | .ok l => .ok (writeOut l)
      | .error msg => .error msg
    else .ok (writeOut (xhtmlPass (cssPass z)))
  | none => .ok (writeOut (xhtmlPass (cssPass z)))

/-- Concrete container document for evaluation: one rootfile pointing at
OEBPS/content.opf. -/
def tContainer : XmlE := XmlE.mk (qn containerNS "container") [] none
  (XmlF.ofList [XmlE.mk (qn containerNS "rootfiles") [] none
    (XmlF.ofList [XmlE.mk (qn containerNS "rootfile")
      [("full-path", "OEBPS/content.opf"), ("media-type", "application/oebps-package+xml")] none XmlF.nil])])

/-- Concrete package document for evaluation: empty metadata and spine. -/
def tPkg : XmlE := XmlE.mk (qn opfNS "package") [] none
  (XmlF.ofList [XmlE.mk (qn opfNS "metadata") [] none XmlF.nil,
    XmlE.mk (qn opfNS "spine") [] none XmlF.nil])

/-- The modify_opf output on tPkg, written out. -/
def tPkgOut : XmlE := XmlE.mk (qn opfNS "package") [] none
  (XmlF.ofList [XmlE.mk (qn opfNS "metadata") [] none
      (XmlF.ofList [XmlE.mk (qn dcNS "language") [] (some "zh-tw") XmlF.nil,
        XmlE.mk "meta" [("name", "primary-writing-mode"), ("content", "vertical-rl")] none XmlF.nil]),
    XmlE.mk (qn opfNS "spine") [("page-progression-direction", "rtl")] none XmlF.nil])

/-- Concrete package document whose metadata holds two dc:language
children. -/
def tDup : XmlE := XmlE.mk (qn opfNS "package") [] none
  (XmlF.ofList [XmlE.mk (qn opfNS "metadata") [] none
    (XmlF.ofList [XmlE.mk (qn dcNS "language") [] (some "en") XmlF.nil,
      XmlE.mk (qn dcNS "language") [] (some "fr") XmlF.nil])])

/-- The modify_opf output on tDup, written out: only the first language
child is retargeted, the second survives. -/
def tDupOut : XmlE := XmlE.mk (qn opfNS "package") [] none
  (XmlF.ofList [XmlE.mk (qn opfNS "metadata") [] none
    (XmlF.ofList [XmlE.mk (qn dcNS "language") [] (some "zh-tw") XmlF.nil,
      XmlE.mk (qn dcNS "language") [] (some "fr") XmlF.nil,
      newMetaElem])])

/-- Concrete archive for evaluation of the pipeline. -/
def zTest : List ZEntry := [
  ZEntry.mk "content.opf" 8 "opfdata",
  ZEntry.mk "mimetype" 8 "application/epub+zip",
  ZEntry.mk "img.png" 0 "bin"]

/-- Concrete parser fixture: every document reads as tPkg. -/
def parse0 : String → XmlE := fun _ => tPkg

/-- Concrete serializer fixture. -/
def ser0 : XmlE → String := fun _ => "serialized"

/-- Concrete parser fixture: every document reads as tContainer. -/
def parseC : String → XmlE := fun _ => tContainer

/-- Concrete archive with a container pointer entry. -/
def zC : List ZEntry := [
  ZEntry.mk "META-INF/container.xml" 8 "c",
  ZEntry.mk "OEBPS/content.opf" 8 "opfdata"]

/-- Concrete parser fixture: every document reads as a package with no
children at all, hence no metadata element. -/
def parseBad : String → XmlE := fun _ => XmlE.mk "package" [] none XmlF.nil

/-- Concrete archive whose only entry is the descriptor. -/
def zBad : List ZEntry := [ZEntry.mk "content.opf" 8 "x"]

/- ===================== THEOREMS ===================== -/

/-- Bridge between the boolean prefix test and the prefix relation. -/
theorem isPrefixOf_true_iff {l₁ l₂ : List Char} :
    l₁.isPrefixOf l₂ = true ↔ l₁ <+: l₂ :=
  List.isPrefixOf_iff_prefix

theorem dropWhile_len_le (p : Char → Bool) (l : List Char) :
    (l.dropWhile p).length ≤ l.length := by
  induction l with
  | nil => exact le_rfl
  | cons c t ih =>
    by_cases h : p c = true
    · rw [List.dropWhile_cons, if_pos h]
      exact le_trans ih (by simp)
    · rw [List.dropWhile_cons, if_neg h]

theorem dropWhile_append_all {p : Char → Bool} {l : List Char}
    (h : ∀ c ∈ l, p c = true) (r : List Char) :
    (l ++ r).dropWhile p = r.dropWhile p := by
  induction l with
  | nil => rfl
  | cons c t ih =>
    rw [List.cons_append, List.dropWhile_cons, if_pos (h c (List.mem_cons_self c t))]
    exact ih (fun x hx => h x (List.mem_cons_of_mem c hx))

theorem dropWhile_append_ne {p : Char → Bool} {l : List Char}
    (h : l.dropWhile p ≠ []) (r : List Char) :
    (l ++ r).dropWhile p = l.dropWhile p ++ r := by
  induction l with
  | nil => simp [List.dropWhile] at h
  | cons c t ih =>
    by_cases hc : p c = true
    · have h2 : t.dropWhile p ≠ [] := by
        rw [List.dropWhile_cons, if_pos hc] at h
        exact h
      rw [List.cons_append, List.dropWhile_cons, if_pos hc,
        List.dropWhile_cons, if_pos hc]
      exact ih h2
    · rw [List.cons_append, List.dropWhile_cons, if_neg hc,
        List.dropWhile_cons, if_neg hc]
      rfl

theorem dropWhile_head_neg {p : Char → Bool} {l : List Char} {c : Char}
    {t : List Char} (h : l.dropWhile p = c :: t) : p c = false := by
  induction l with
  | nil => simp [List.dropWhile] at h
  | cons a l2 ih =>
    by_cases ha : p a = true
    · rw [List.dropWhile_cons, if_pos ha] at h
      exact ih h
    · rw [List.dropWhile_cons, if_neg ha] at h
      injection h with h1 _
      subst h1
      cases hpc : p a
      · rfl
      · exact absurd hpc ha

theorem dropWhile_nil_iff_all {p : Char → Bool} {l : List Char} :
    l.dropWhile p = [] ↔ ∀ c ∈ l, p c = true := by
  induction l with
  | nil => simp [List.dropWhile]
  | cons c t ih =>
    by_cases hc : p c = true
    · rw [List.dropWhile_cons, if_pos hc]
      constructor
      · intro h x hx
        rcases List.mem_cons.mp hx with h2 | h2
        · rw [h2]; exact hc
        · exact ih.mp h x h2
      · intro h
        exact ih.mpr (fun x hx => h x (List.mem_cons_of_mem c hx))
    · rw [List.dropWhile_cons, if_neg hc]
      constructor
      · intro h; cases h
      · intro h
        exact absurd (h c (List.mem_cons_self c t)) hc

theorem dropWhile_dropWhile (p : Char → Bool) (l : List Char) :
    (l.dropWhile p).dropWhile p = l.dropWhile p := by
  cases h : l.dropWhile p with
  | nil => rfl
  | cons c t =>
    rw [List.dropWhile_cons, if_neg (by simp [dropWhile_head_neg h])]

theorem eraseTrailing_nil (p : Char → Bool) : eraseTrailing p [] = [] := rfl

theorem eraseTrailing_all {p : Char → Bool} {l : List Char}
    (h : ∀ c ∈ l, p c = true) : eraseTrailing p l = [] := by
  unfold eraseTrailing
  have h2 : l.reverse.dropWhile p = [] :=
    dropWhile_nil_iff_all.mpr (fun c hc => h c (List.mem_reverse.mp hc))
  rw [h2]
  rfl

theorem eraseTrailing_cons_ne {p : Char → Bool} {c : Char} {a2 : List Char}
    (h : ¬ ∀ x ∈ c :: a2, p x = true) :
    eraseTrailing p (c :: a2) = c :: eraseTrailing p a2 := by
  unfold eraseTrailing
  rw [List.reverse_cons]
  by_cases h2 : a2.reverse.dropWhile p = []
  · have hall : ∀ x ∈ a2, p x = true := fun x hx =>
      dropWhile_nil_iff_all.mp h2 x (List.mem_reverse.mpr hx)
    have hc : p c = false := by
      cases hpc : p c
      · rfl
      · exact absurd (fun x hx => by
          rcases List.mem_cons.mp hx with h3 | h3
          · rw [h3]; exact hpc
          · exact hall x h3) h
    rw [dropWhile_append_all (fun x hx => dropWhile_nil_iff_all.mp h2 x hx)]
    rw [show List.dropWhile p [c] = [c] from by
      rw [show [c] = c :: ([] : List Char) from rfl, List.dropWhile_cons,
        if_neg (by simp [hc])]]
    rw [h2]
    rfl
  · rw [dropWhile_append_ne h2, List.reverse_append]
    simp

theorem eraseTrailing_idem (p : Char → Bool) (l : List Char) :
    eraseTrailing p (eraseTrailing p l) = eraseTrailing p l := by
  unfold eraseTrailing
  rw [List.reverse_reverse, dropWhile_dropWhile]

theorem pyStripList_idem (l : List Char) :
    pyStripList (pyStripList l) = pyStripList l := by
  unfold pyStripList
  cases hy : l.dropWhile pyIsSpace with
  | nil => rfl
  | cons c t =>
    have hc : pyIsSpace c = false := dropWhile_head_neg hy
    have hnall : ¬ ∀ x ∈ c :: t, pyIsSpace x = true := by
      intro hall
      rw [hall c (List.mem_cons_self c t)] at hc
      cases hc
    rw [eraseTrailing_cons_ne hnall]
    rw [List.dropWhile_cons, if_neg (by simp [hc])]
    have hnall2 : ¬ ∀ x ∈ c :: eraseTrailing pyIsSpace t, pyIsSpace x = true := by
      intro hall
      rw [hall c (List.mem_cons_self c _)] at hc
      cases hc
    rw [eraseTrailing_cons_ne hnall2, eraseTrailing_idem]

theorem ffChars_length : ffChars.length = 11 := by decide

theorem ffChars_no_space : ∀ c ∈ ffChars, pyIsSpace c = false := by decide

theorem ffChars_no_overlap :
    ∀ k, k < ffChars.length → 0 < k → ¬ (ffChars.drop k <+: ffChars) := by decide

theorem prefix_append_left {p x y : List Char} (h : p <+: x ++ y)
    (hl : p.length ≤ x.length) : p <+: x := by
  rw [List.prefix_iff_eq_take] at h ⊢
  rwa [List.take_append_of_le_length hl] at h

/-- A list without self-overlap cannot occur as a prefix straddling the
boundary of a nonempty pat-free block a followed by pat itself. -/
theorem not_prefix_straddle (pat a y : List Char)
    (hov : ∀ k, k < pat.length → 0 < k → ¬ (pat.drop k <+: pat))
    (ha : ¬ (pat <:+: a)) (hne : a ≠ []) :
    ¬ (pat <+: a ++ (pat ++ y)) := by
  intro hp
  by_cases hlen : pat.length ≤ a.length
  · exact ha ( List.IsPrefix.isInfix (prefix_append_left hp hlen))
  · push_neg at hlen
    have hpa : a <+: pat :=
      List.prefix_of_prefix_length_le (List.prefix_append a _) hp (le_of_lt hlen)
    have hsplit : a ++ pat.drop a.length = pat := by
      rw [List.prefix_iff_eq_take] at hpa
      conv_rhs => rw [← List.take_append_drop a.length pat]
      rw [← hpa]
    have hdrop : pat.drop a.length <+: pat ++ y := by
      have h2 : a ++ pat.drop a.length <+: a ++ (pat ++ y) := by
        rw [hsplit]; exact hp
      exact (List.prefix_append_right_inj a).mp h2
    have hfin : pat.drop a.length <+: pat :=
      prefix_append_left hdrop (by rw [List.length_drop]; omega)
    exact hov a.length hlen (List.length_pos.mpr hne) hfin

/-- A successful tryMatchFF needs the font-family literal somewhere in s. -/
theorem tryMatchFF_infix_of_some {lead : Char → Bool} {ns en : Bool}
    {s r : List Char} (h : tryMatchFF lead ns en s = some r) :
    ffChars <:+: s := by
  unfold tryMatchFF at h
  by_cases hp : List.isPrefixOf ffChars (s.dropWhile lead) = true
  · have h1 : ffChars <+: s.dropWhile lead := isPrefixOf_true_iff.mp hp
    have h2 : s.dropWhile lead <:+ s := List.dropWhile_suffix lead
    exact List.IsInfix.trans ( List.IsPrefix.isInfix h1) ( List.IsSuffix.isInfix h2)
  · rw [if_neg hp] at h
    cases h

theorem afterSemi_len_le (en : Bool) (b : List Char) :
    (afterSemi en b).length ≤ b.length := by
  cases en
  · simp only [afterSemi]
    exact le_rfl
  · cases b with
    | nil => exact le_rfl
    | cons e r6 =>
      simp only [afterSemi]
      by_cases he : (e == '\n') = true
      · rw [if_pos he]
        simp
      · rw [if_neg he]

theorem ffSemiStep_len {ns en : Bool} {l r : List Char}
    (h : ffSemiStep ns en l = some r) : r.length ≤ l.length := by
  cases l with
  | nil =>
    simp only [ffSemiStep] at h
    by_cases hns : ns = true
    · rw [if_pos hns] at h
      cases h
    · rw [if_neg hns] at h
      injection h with h2
      rw [← h2]
  | cons d r5 =>
    simp only [ffSemiStep] at h
    by_cases hd : (d == ';') = true
    · rw [if_pos hd] at h
      injection h with h2
      rw [← h2]
      exact le_trans (afterSemi_len_le en r5) (by simp)
    · rw [if_neg hd] at h
      by_cases hns : ns = true
      · rw [if_pos hns] at h
        cases h
      · rw [if_neg hns] at h
        injection h with h2
        rw [← h2]

theorem ffColonStep_len {ns en : Bool} {l r : List Char}
    (h : ffColonStep ns en l = some r) : r.length ≤ l.length := by
  cases l with
  | nil => cases h
  | cons c r3 =>
    simp only [ffColonStep] at h
    by_cases hc : (c == ':') = true
    · rw [if_pos hc] at h
      have h1 := ffSemiStep_len h
      have h2 := dropWhile_len_le (fun x => !(x == ';')) r3
      simp only [List.length_cons]
      omega
    · rw [if_neg hc] at h
      cases h

/-- A successful match consumes at least the font-family literal. -/
theorem tryMatchFF_shrink {lead : Char → Bool} {ns en : Bool} {s r : List Char}
    (h : tryMatchFF lead ns en s = some r) : r.length < s.length := by
  unfold tryMatchFF at h
  by_cases hp : List.isPrefixOf ffChars (s.dropWhile lead) = true
  · rw [if_pos hp] at h
    have h11 : 11 ≤ (s.dropWhile lead).length := by
      have := List.IsPrefix.length_le (isPrefixOf_true_iff.mp hp)
      rwa [ffChars_length] at this
    have hA : (s.dropWhile lead).length ≤ s.length := dropWhile_len_le lead s
    have hB := ffColonStep_len h
    have hC := dropWhile_len_le pyIsSpace ((s.dropWhile lead).drop 11)
    have hD : ((s.dropWhile lead).drop 11).length = (s.dropWhile lead).length - 11 :=
      List.length_drop 11 _
    omega
  · rw [if_neg hp] at h
    cases h

theorem tryMatchFF_nil (lead : Char → Bool) (ns en : Bool) :
    tryMatchFF lead ns en [] = none := rfl

/-- Fuel does not matter once it covers the length of the input. -/
theorem subFFgo_fuel {lead : Char → Bool} {ns en : Bool} :
    ∀ f1 f2 s, s.length ≤ f1 → s.length ≤ f2 →
      subFFgo lead ns en f1 s = subFFgo lead ns en f2 s := by
  intro f1
  induction f1 with
  | zero =>
    intro f2 s h1 h2
    have h0 : s = [] := List.length_eq_zero.mp (Nat.le_zero.mp h1)
    subst h0
    cases f2 with
    | zero => rfl
    | succ f => rfl
  | succ f ih =>
    intro f2 s h1 h2
    cases f2 with
    | zero =>
      have h0 : s = [] := List.length_eq_zero.mp (Nat.le_zero.mp h2)
      subst h0
      rfl
    | succ g =>
      cases s with
      | nil => rfl
      | cons c t =>
        simp only [List.length_cons] at h1 h2
        cases hm : tryMatchFF lead ns en (c :: t) with
        | some r =>
          have hr := tryMatchFF_shrink hm
          simp only [List.length_cons] at hr
          simp only [subFFgo, hm]
          exact ih g r (by omega) (by omega)
        | none =>
          simp only [subFFgo, hm]
          rw [ih g t (by omega) (by omega)]

theorem subFF_nil (lead : Char → Bool) (ns en : Bool) : subFF lead ns en [] = [] := rfl

theorem subFF_step_some {lead : Char → Bool} {ns en : Bool} {s r : List Char}
    (h : tryMatchFF lead ns en s = some r) :
    subFF lead ns en s = subFF lead ns en r := by
  cases s with
  | nil => rw [tryMatchFF_nil] at h; cases h
  | cons c t =>
    have hr := tryMatchFF_shrink h
    simp only [List.length_cons] at hr
    unfold subFF
    simp only [List.length_cons, subFFgo, h]
    exact subFFgo_fuel t.length r.length r (by omega) le_rfl

theorem subFF_step_none {lead : Char → Bool} {ns en : Bool} {c : Char}
    {t : List Char} (h : tryMatchFF lead ns en (c :: t) = none) :
    subFF lead ns en (c :: t) = c :: subFF lead ns en t := by
  unfold subFF
  simp only [List.length_cons, subFFgo, h]

/-- Without the literal there is no match, and the substitution is the
identity. -/
theorem subFF_id_of_no_ff {lead : Char → Bool} {ns en : Bool} :
    ∀ {l : List Char}, ¬ (ffChars <:+: l) → subFF lead ns en l = l := by
  intro l
  induction l with
  | nil => intro _; exact subFF_nil lead ns en
  | cons c t ih =>
    intro h
    have hnone : tryMatchFF lead ns en (c :: t) = none := by
      cases hm : tryMatchFF lead ns en (c :: t) with
      | some r => exact absurd (tryMatchFF_infix_of_some hm) h
      | none => rfl
    rw [subFF_step_none hnone, ih (fun hi => h (List.infix_cons_iff.mpr (Or.inr hi)))]

/-- Leading characters of the lead class do not change the match attempt. -/
theorem tryMatchFF_ws {lead : Char → Bool} {ns en : Bool} {w : List Char}
    (hw : ∀ c ∈ w, lead c = true) (s : List Char) :
    tryMatchFF lead ns en (w ++ s) = tryMatchFF lead ns en s := by
  unfold tryMatchFF
  rw [dropWhile_append_all hw]

/-- A failed prefix test makes the match attempt fail. -/
theorem tryMatchFF_none_of_not_pre {lead : Char → Bool} {ns en : Bool}
    {s : List Char} (h : ¬ (ffChars <+: s.dropWhile lead)) :
    tryMatchFF lead ns en s = none := by
  unfold tryMatchFF
  rw [if_neg (fun hb => h (isPrefixOf_true_iff.mp hb))]

theorem dropWhile_ffChars_append {p : Char → Bool} (hp : p 'f' = false)
    (x : List Char) : (ffChars ++ x).dropWhile p = ffChars ++ x := by
  rw [show ffChars ++ x = 'f' :: ("ont-family".data ++ x) from rfl,
    List.dropWhile_cons, if_neg (by simp [hp])]

/-- Successful match on the canonical semicolon-terminated declaration
shape: leading lead-run, the literal, whitespace, colon, semicolon-free
value, semicolon, rest. -/
theorem tryMatchFF_hit {lead : Char → Bool} {ns en : Bool}
    (hlead : ∀ c, lead c = true → pyIsSpace c = true)
    {w1 w2 v : List Char} (b : List Char)
    (hw1 : ∀ c ∈ w1, lead c = true)
    (hw2 : ∀ c ∈ w2, pyIsSpace c = true)
    (hv : ∀ c ∈ v, (c == ';') = false) :
    tryMatchFF lead ns en (w1 ++ (ffChars ++ (w2 ++ ':' :: (v ++ ';' :: b)))) =
      some (afterSemi en b) := by
  have hleadf : lead 'f' = false := by
    cases hf : lead 'f'
    · rfl
    · have h2 := hlead 'f' hf
      cases h2
  have e1 : ((w1 ++ (ffChars ++ (w2 ++ ':' :: (v ++ ';' :: b)))).dropWhile lead)
      = ffChars ++ (w2 ++ ':' :: (v ++ ';' :: b)) := by
    rw [dropWhile_append_all hw1]
    exact dropWhile_ffChars_append hleadf _
  unfold tryMatchFF
  rw [e1]
  rw [if_pos (isPrefixOf_true_iff.mpr (List.prefix_append _ _))]
  rw [show (11 : Nat) = ffChars.length from by rw [ffChars_length], List.drop_left]
  rw [dropWhile_append_all hw2]
  rw [List.dropWhile_cons, if_neg (by decide)]
  simp only [ffColonStep]
  rw [if_pos (by decide)]
  rw [dropWhile_append_all (fun c hc => by simp [hv c hc])]
  rw [List.dropWhile_cons, if_neg (by decide)]
  simp only [ffSemiStep]
  rw [if_pos (by decide)]

/-- Successful match on the end-of-string declaration shape (no semicolon);
only when the semicolon is optional (ns = false). -/
theorem tryMatchFF_hit_end {lead : Char → Bool} {en : Bool}
    (hlead : ∀ c, lead c = true → pyIsSpace c = true)
    {w1 w2 v : List Char}
    (hw1 : ∀ c ∈ w1, lead c = true)
    (hw2 : ∀ c ∈ w2, pyIsSpace c = true)
    (hv : ∀ c ∈ v, (c == ';') = false) :
    tryMatchFF lead false en (w1 ++ (ffChars ++ (w2 ++ ':' :: v))) = some [] := by
  have hleadf : lead 'f' = false := by
    cases hf : lead 'f'
    · rfl
    · have h2 := hlead 'f' hf
      cases h2
  have e1 : ((w1 ++ (ffChars ++ (w2 ++ ':' :: v))).dropWhile lead)
      = ffChars ++ (w2 ++ ':' :: v) := by
    rw [dropWhile_append_all hw1]
    exact dropWhile_ffChars_append hleadf _
  unfold tryMatchFF
  rw [e1]
  rw [if_pos (isPrefixOf_true_iff.mpr (List.prefix_append _ _))]
  rw [show (11 : Nat) = ffChars.length from by rw [ffChars_length], List.drop_left]
  rw [dropWhile_append_all hw2]
  rw [List.dropWhile_cons, if_neg (by decide)]
  simp only [ffColonStep]
  rw [if_pos (by decide)]
  rw [dropWhile_nil_iff_all.mpr (fun c hc => by simp [hv c hc])]
  simp only [ffSemiStep]
  rw [if_neg (by decide)]

/-- The scan of the substitution through a block a free of the font-family
literal, followed by a position where the match fires: a is emitted with its
trailing lead-run removed (the run is part of the match), and the scan
resumes after the match. -/
theorem subFF_scan {lead : Char → Bool} {ns en : Bool}
    (hlead : ∀ c, lead c = true → pyIsSpace c = true) :
    ∀ (a : List Char) {w1 u r : List Char},
      ¬ (ffChars <:+: a) → (∀ c ∈ w1, lead c = true) →
      tryMatchFF lead ns en (w1 ++ (ffChars ++ u)) = some r →
      subFF lead ns en (a ++ (w1 ++ (ffChars ++ u))) =
        eraseTrailing lead a ++ subFF lead ns en r := by
  intro a
  induction a with
  | nil =>
    intro w1 u r _ _ hm
    rw [List.nil_append, subFF_step_some hm, eraseTrailing_nil, List.nil_append]
  | cons c a2 ih =>
    intro w1 u r ha hw1 hm
    by_cases hall : ∀ x ∈ c :: a2, lead x = true
    · have hm2 : tryMatchFF lead ns en ((c :: a2) ++ (w1 ++ (ffChars ++ u))) = some r := by
        rw [tryMatchFF_ws hall]
        exact hm
      rw [subFF_step_some hm2, eraseTrailing_all hall, List.nil_append]
    · have hd : (c :: a2).dropWhile lead ≠ [] := by
        intro h0
        exact hall (dropWhile_nil_iff_all.mp h0)
      have hin : ¬ (ffChars <:+: (c :: a2).dropWhile lead) := by
        intro hinf
        exact ha (List.IsInfix.trans hinf
          ( List.IsSuffix.isInfix (List.dropWhile_suffix lead)))
      have hnone : tryMatchFF lead ns en (c :: (a2 ++ (w1 ++ (ffChars ++ u)))) = none := by
        rw [← List.cons_append]
        apply tryMatchFF_none_of_not_pre
        rw [dropWhile_append_ne hd]
        intro hp
        rcases hw : w1 with _ | ⟨w, ws⟩
        · rw [hw] at hp
          rw [List.nil_append] at hp
          exact not_prefix_straddle ffChars ((c :: a2).dropWhile lead) u
            ffChars_no_overlap hin hd hp
        · rw [hw] at hp
          by_cases hlen : ffChars.length ≤ ((c :: a2).dropWhile lead).length
          · exact hin ( List.IsPrefix.isInfix (prefix_append_left hp hlen))
          · push_neg at hlen
            have hpa : (c :: a2).dropWhile lead <+: ffChars :=
              List.prefix_of_prefix_length_le (List.prefix_append _ _) hp
                (le_of_lt hlen)
            have hsplit : (c :: a2).dropWhile lead ++
                ffChars.drop ((c :: a2).dropWhile lead).length = ffChars := by
              rw [List.prefix_iff_eq_take] at hpa
              conv_rhs => rw [← List.take_append_drop ((c :: a2).dropWhile lead).length ffChars]
              rw [← hpa]
            have hdrop : ffChars.drop ((c :: a2).dropWhile lead).length <+:
                (w :: ws) ++ (ffChars ++ u) := by
              have h2 : (c :: a2).dropWhile lead ++
                  ffChars.drop ((c :: a2).dropWhile lead).length <+:
                  (c :: a2).dropWhile lead ++ ((w :: ws) ++ (ffChars ++ u)) := by
                rw [hsplit]
                exact hp
              exact (List.prefix_append_right_inj _).mp h2
            cases hdd : ffChars.drop ((c :: a2).dropWhile lead).length with
            | nil =>
              have h4 := congrArg List.length hdd
              rw [List.length_drop] at h4
              simp only [List.length_nil] at h4
              have h11 : ffChars.length = 11 := ffChars_length
              omega
            | cons e rest2 =>
              rw [hdd] at hdrop
              rw [List.cons_append] at hdrop
              have he : e = w := (List.cons_prefix_cons.mp hdrop).1
              have hmem : e ∈ ffChars := by
                have h3 : e ∈ ffChars.drop ((c :: a2).dropWhile lead).length := by
                  rw [hdd]
                  exact List.mem_cons_self e rest2
                exact List.mem_of_mem_drop h3
              have h5 : pyIsSpace e = false := ffChars_no_space e hmem
              have h6 : pyIsSpace w = true :=
                hlead w (hw1 w (by rw [hw]; exact List.mem_cons_self w ws))
              rw [he, h6] at h5
              cases h5
      rw [List.cons_append, subFF_step_none hnone]
      rw [ih (fun hi => ha (List.infix_cons_iff.mpr (Or.inr hi))) hw1 hm]
      rw [eraseTrailing_cons_ne hall]
      rw [List.cons_append]

theorem spTab_sub_space : ∀ c, isSpTab c = true → pyIsSpace c = true := by
  intro c h
  unfold isSpTab at h
  unfold pyIsSpace
  rcases Bool.or_eq_true_iff.mp h with h2 | h2 <;> simp [h2]

theorem afterSemi_false (b : List Char) : afterSemi false b = b := rfl

/-- Claim C8: the Attribute-Scoped Style Stripper removes every font-family
declaration (property name with optional surrounding whitespace, value up to
the next semicolon or the end of the string, semicolon included), keeps the
other declarations, trims the result, and returns the input trimmed when no
font-family occurs; being a total function it raises nothing.  Part 1: no
font-family occurrence gives the trimmed input.  Part 2: a declaration
terminated by a semicolon is removed together with the whitespace run before
it, everything before (free of the literal) and after is kept and processed
the same way.  Part 3: the same for a declaration running to the end of the
string. -/
theorem C8_style_stripper_contract :
    (∀ s : String, ¬ (ffChars <:+: s.data) →
      strip_font_family_from_style s = String.mk (pyStripList s.data)) ∧
    (∀ a w1 w2 v b : List Char, ¬ (ffChars <:+: a) →
      (∀ c ∈ w1, pyIsSpace c = true) → (∀ c ∈ w2, pyIsSpace c = true) →
      (∀ c ∈ v, (c == ';') = false) →
      stripStyleData (a ++ (w1 ++ (ffChars ++ (w2 ++ ':' :: (v ++ ';' :: b))))) =
        eraseTrailing pyIsSpace a ++ stripStyleData b) ∧
    (∀ a w1 w2 v : List Char, ¬ (ffChars <:+: a) →
      (∀ c ∈ w1, pyIsSpace c = true) → (∀ c ∈ w2, pyIsSpace c = true) →
      (∀ c ∈ v, (c == ';') = false) →
      stripStyleData (a ++ (w1 ++ (ffChars ++ (w2 ++ ':' :: v)))) =
        eraseTrailing pyIsSpace a) := by
  refine ⟨?p1, ?p2, ?p3⟩
  · intro s h
    unfold strip_font_family_from_style
    rw [show stripStyleData s.data = s.data from subFF_id_of_no_ff h]
  · intro a w1 w2 v b ha hw1 hw2 hv
    have hm : tryMatchFF pyIsSpace false false
        (w1 ++ (ffChars ++ (w2 ++ ':' :: (v ++ ';' :: b)))) =
        some (afterSemi false b) :=
      tryMatchFF_hit (fun _ h => h) b hw1 hw2 hv
    unfold stripStyleData
    rw [subFF_scan (fun _ h => h) a ha hw1 hm, afterSemi_false]
  · intro a w1 w2 v ha hw1 hw2 hv
    have hm : tryMatchFF pyIsSpace false false
        (w1 ++ (ffChars ++ (w2 ++ ':' :: v))) = some [] :=
      tryMatchFF_hit_end (fun _ h => h) hw1 hw2 hv
    unfold stripStyleData
    rw [subFF_scan (fun _ h => h) a ha hw1 hm, subFF_nil, List.append_nil]

/-- Witness for C8: the three parts applied at concrete inputs. -/
theorem C8_style_stripper_contract_witness :
    strip_font_family_from_style "  color: red  " =
      String.mk (pyStripList "  color: red  ".data) ∧
    stripStyleData ("color:red;".data ++
        ([' '] ++ (ffChars ++ (([] : List Char) ++ ':' ::
          ("Arial".data ++ ';' :: "margin:0".data))))) =
      eraseTrailing pyIsSpace "color:red;".data ++ stripStyleData "margin:0".data ∧
    stripStyleData ("color:red;".data ++
        ([' '] ++ (ffChars ++ (([] : List Char) ++ ':' :: "Arial".data)))) =
      eraseTrailing pyIsSpace "color:red;".data :=
  ⟨C8_style_stripper_contract.1 _ (by decide),
   C8_style_stripper_contract.2.1 _ _ _ _ _ (by decide) (by decide) (by decide) (by decide),
   C8_style_stripper_contract.2.2 _ _ _ _ (by decide) (by decide) (by decide) (by decide)⟩

/-- Claim C9 (counterexample): the Style Stripper is not idempotent on every
input containing a font-family declaration.  Removing the declaration from
this input splices a new font-family declaration together, and the second
application removes it. -/
theorem C9_counterexample :
    (ffChars <:+: "font-famfont-family:x;ily:y".data) ∧
    strip_font_family_from_style "font-famfont-family:x;ily:y" = "font-family:y" ∧
    strip_font_family_from_style
        (strip_font_family_from_style "font-famfont-family:x;ily:y") = "" ∧
    strip_font_family_from_style
        (strip_font_family_from_style "font-famfont-family:x;ily:y") ≠
      strip_font_family_from_style "font-famfont-family:x;ily:y" := by
  refine ⟨by decide, by decide, by decide, by decide⟩

/-- Claim C9 (amended): the Style Stripper is idempotent on every style
string whose once-stripped result no longer contains the font-family
literal; in particular on every input where the removal does not splice a
new occurrence together. -/
theorem C9_stripper_idem_of_no_ff (s : String)
    (h : ¬ (ffChars <:+: (strip_font_family_from_style s).data)) :
    strip_font_family_from_style (strip_font_family_from_style s) =
      strip_font_family_from_style s := by
  unfold strip_font_family_from_style at h ⊢
  have h2 : stripStyleData (pyStripList (stripStyleData s.data)) =
      pyStripList (stripStyleData s.data) := subFF_id_of_no_ff h
  rw [show (String.mk (pyStripList (stripStyleData s.data))).data =
    pyStripList (stripStyleData s.data) from rfl]
  rw [h2, pyStripList_idem]

/-- Witness for the amended C9. -/
theorem C9_stripper_idem_witness :
    strip_font_family_from_style
        (strip_font_family_from_style "color: red; font-family: Arial") =
      strip_font_family_from_style "color: red; font-family: Arial" :=
  C9_stripper_idem_of_no_ff _ (by decide)

/-- Claim C3 (counterexample): a font-family declaration with no terminating
semicolon is not removed by strip_css_font_family (the regex requires the
semicolon), so the modify_css output keeps a font-family: occurrence outside
the two fixed blocks. -/
theorem C3_counterexample :
    strip_css_font_family "font-family: X" = "font-family: X" ∧
    ("font-family:".data <:+: (strip_css_font_family "font-family: X").data) := by
  refine ⟨by decide, by decide⟩

/-- Claim C3 (amended): the Stylesheet Rewriter output is exactly the fixed
font-face block, a newline, the input with a left-to-right pass of
semicolon-terminated font-family declarations removed, a newline, and the
fixed writing-mode block; it begins with the fixed font-face block and ends
with the fixed writing-mode block.  Semicolon-terminated declarations are
removed (part 4, with the newline directly after the semicolon); a
declaration without terminating semicolon survives, so no claim is made
that font-family is absent outside the fixed blocks. -/
theorem C3_css_rewriter :
    (∀ css : String, modify_css css =
      FONT_FACE_CSS ++ "\n" ++ strip_css_font_family css ++ "\n" ++ EXTRA_CSS) ∧
    (∀ css : String, FONT_FACE_CSS.data <+: (modify_css css).data) ∧
    (∀ css : String, EXTRA_CSS.data <:+ (modify_css css).data) ∧
    (∀ a w1 w2 v b : List Char, ¬ (ffChars <:+: a) →
      (∀ c ∈ w1, isSpTab c = true) → (∀ c ∈ w2, pyIsSpace c = true) →
      (∀ c ∈ v, (c == ';') = false) →
      stripCssData (a ++ (w1 ++ (ffChars ++ (w2 ++ ':' :: (v ++ ';' :: b))))) =
        eraseTrailing isSpTab a ++ stripCssData (afterSemi true b)) := by
  refine ⟨fun _ => rfl, ?p2, ?p3, ?p4⟩
  · intro css
    simp only [modify_css, String.data_append, List.append_assoc]
    exact List.prefix_append _ _
  · intro css
    simp only [modify_css, String.data_append]
    exact List.suffix_append _ _
  · intro a w1 w2 v b ha hw1 hw2 hv
    have hm : tryMatchFF isSpTab true true
        (w1 ++ (ffChars ++ (w2 ++ ':' :: (v ++ ';' :: b)))) =
        some (afterSemi true b) :=
      tryMatchFF_hit spTab_sub_space b hw1 hw2 hv
    unfold stripCssData
    rw [subFF_scan spTab_sub_space a ha hw1 hm]

/-- Witness for the amended C3: part 4 applied at a concrete stylesheet
fragment. -/
theorem C3_css_rewriter_witness :
    stripCssData ("p \x7b".data ++
        ([' '] ++ (ffChars ++ (([] : List Char) ++ ':' ::
          (" Arial".data ++ ';' :: "\n color: red; \x7d".data))))) =
      eraseTrailing isSpTab "p \x7b".data ++
        stripCssData (afterSemi true "\n color: red; \x7d".data) :=
  C3_css_rewriter.2.2.2 _ _ _ _ _ (by decide) (by decide) (by decide) (by decide)

/-- Claim C10 (counterexample): the second output does contain the fixed
font-face block intact, freshly prepended at its start by the second
application (the claim asserts it no longer contains the block intact). -/
theorem C10_counterexample :
    FONT_FACE_CSS.data <+: (modify_css (modify_css "")).data := by
  simp only [modify_css, String.data_append, List.append_assoc]
  exact List.prefix_append _ _

/-- Claim C10 (amended): modify_css is not idempotent; every line of the
fixed font-face block matches the global font-family strip pattern, so the
copy of the block prepended by the first application is mangled by the
second pass (while a fresh intact copy is prepended at the front of the
second output). -/
theorem C10_css_not_idempotent :
    (¬ ∀ css : String, modify_css (modify_css css) = modify_css css) ∧
    (∀ l ∈ fontFaceLines, strip_css_font_family l ≠ l) ∧
    strip_css_font_family FONT_FACE_CSS ≠ FONT_FACE_CSS := by
  refine ⟨?p1, by decide, by decide⟩
  intro h
  have h0 := congrArg String.data (h "")
  simp only [modify_css, String.data_append, List.append_assoc] at h0
  have h1 := List.append_cancel_left h0
  have h2 := List.append_cancel_left h1
  have h3 : (strip_css_font_family (modify_css "")).data ++
      ("\n".data ++ EXTRA_CSS.data) =
      (strip_css_font_family "").data ++ ("\n".data ++ EXTRA_CSS.data) := h2
  have h4 := List.append_cancel_right h3
  have h5 : stripCssData (modify_css "").data = stripCssData ("" : String).data := h4
  obtain ⟨t, ht⟩ : ∃ t, (modify_css "").data = '@' :: t := ⟨_, rfl⟩
  rw [ht] at h5
  have hnone : tryMatchFF isSpTab true true ('@' :: t) = none := by
    apply tryMatchFF_none_of_not_pre
    rw [List.dropWhile_cons, if_neg (by decide)]
    intro hp
    rw [show ffChars = 'f' :: "ont-family".data from rfl] at hp
    exact absurd (List.cons_prefix_cons.mp hp).1 (by decide)
  unfold stripCssData at h5
  rw [subFF_step_none hnone] at h5
  cases h5

/-- Witness for the amended C10: its universally quantified part applied
to the first line of the font-face block. -/
theorem C10_css_not_idempotent_witness :
    strip_css_font_family
        "@font-face \x7b font-family: \"宋體繁\"; src: local(\"STSongTC-Light\"), local(\"STSongTC\"); \x7d" ≠
      "@font-face \x7b font-family: \"宋體繁\"; src: local(\"STSongTC-Light\"), local(\"STSongTC\"); \x7d" :=
  C10_css_not_idempotent.2.1 _ (by decide)

theorem takeWhile_append_all {p : Char → Bool} {l : List Char}
    (h : ∀ c ∈ l, p c = true) (r : List Char) :
    (l ++ r).takeWhile p = l ++ r.takeWhile p := by
  induction l with
  | nil => rfl
  | cons c t ih =>
    rw [List.cons_append, List.takeWhile_cons, if_pos (h c (List.mem_cons_self c t))]
    rw [ih (fun x hx => h x (List.mem_cons_of_mem c hx))]
    rfl

theorem space_not_tagChar : ∀ c, pyIsSpace c = true → isTagChar c = false := by
  intro c h
  have h2 : c = ' ' ∨ c = '\t' ∨ c = '\n' ∨ c = '\r' ∨ c = '\x0b' ∨ c = '\x0c' := by
    simp only [pyIsSpace, Bool.or_eq_true, beq_iff_eq] at h
    tauto
  rcases h2 with h3 | h3 | h3 | h3 | h3 | h3 <;> subst h3 <;> decide

theorem styleChars_no_overlap :
    ∀ k, k < styleChars.length → 0 < k → ¬ (styleChars.drop k <+: styleChars) := by decide

theorem tryStyleMatch_shrink {s : List Char} {q : Char} {v rem : List Char}
    (h : tryStyleMatch s = some (q, v, rem)) : rem.length < s.length := by
  unfold tryStyleMatch at h
  by_cases hp : List.isPrefixOf styleChars s = true
  · rw [if_pos hp] at h
    have h6 : 6 ≤ s.length := by
      have h2 := List.IsPrefix.length_le (isPrefixOf_true_iff.mp hp)
      have h3 : styleChars.length = 6 := by decide
      omega
    cases hd : s.drop 6 with
    | nil =>
      rw [hd] at h
      simp only [styleQuoteStep] at h
      exact Option.noConfusion h
    | cons qc t2 =>
      rw [hd] at h
      simp only [styleQuoteStep] at h
      by_cases hq : quoteChar qc = true
      · rw [if_pos hq] at h
        cases hdw : t2.dropWhile (fun c => !(c == qc)) with
        | nil =>
          rw [hdw] at h
          simp only [styleValueStep] at h
          exact Option.noConfusion h
        | cons x rem2 =>
          rw [hdw] at h
          simp only [styleValueStep] at h
          by_cases hnl : (t2.takeWhile (fun c => !(c == qc))).contains '\n' = true
          · rw [if_pos hnl] at h
            cases h
          · rw [if_neg hnl] at h
            injection h with h1
            injection h1 with ha hb
            injection hb with hc hd2
            have hlen1 : rem2.length < t2.length + 1 := by
              have h4 := dropWhile_len_le (fun c => !(c == qc)) t2
              rw [hdw] at h4
              simp only [List.length_cons] at h4
              omega
            have hlen2 : (s.drop 6).length = s.length - 6 := List.length_drop 6 s
            rw [hd] at hlen2
            simp only [List.length_cons] at hlen2
            rw [← hd2]
            omega
      · rw [if_neg hq] at h
        cases h
  · rw [if_neg hp] at h
    cases h

theorem tryStyleMatch_nil : tryStyleMatch [] = none := rfl

theorem subStyleGo_fuel :
    ∀ f1 f2 s, s.length ≤ f1 → s.length ≤ f2 → subStyleGo f1 s = subStyleGo f2 s := by
  intro f1
  induction f1 with
  | zero =>
    intro f2 s h1 h2
    have h0 : s = [] := List.length_eq_zero.mp (Nat.le_zero.mp h1)
    subst h0
    cases f2 with
    | zero => rfl
    | succ f => rfl
  | succ f ih =>
    intro f2 s h1 h2
    cases f2 with
    | zero =>
      have h0 : s = [] := List.length_eq_zero.mp (Nat.le_zero.mp h2)
      subst h0
      rfl
    | succ g =>
      cases s with
      | nil => rfl
      | cons c t =>
        simp only [List.length_cons] at h1 h2
        cases hm : tryStyleMatch (c :: t) with
        | some res =>
          obtain ⟨q, v, rem⟩ := res
          have hr : rem.length < t.length + 1 := by
            have := tryStyleMatch_shrink hm
            simpa using this
          simp only [subStyleGo, hm]
          rw [ih g rem (by omega) (by omega)]
        | none =>
          simp only [subStyleGo, hm]
          rw [ih g t (by omega) (by omega)]

theorem subStyle_step_some {s : List Char} {q : Char} {v rem : List Char}
    (h : tryStyleMatch s = some (q, v, rem)) :
    subStyleAttr s = fixStyle q v ++ subStyleAttr rem := by
  cases s with
  | nil => rw [tryStyleMatch_nil] at h; cases h
  | cons c t =>
    have hr := tryStyleMatch_shrink h
    simp only [List.length_cons] at hr
    unfold subStyleAttr
    simp only [List.length_cons, subStyleGo, h]
    rw [subStyleGo_fuel t.length rem.length rem (by omega) le_rfl]

theorem subStyle_step_none {c : Char} {t : List Char}
    (h : tryStyleMatch (c :: t) = none) :
    subStyleAttr (c :: t) = c :: subStyleAttr t := by
  unfold subStyleAttr
  simp only [List.length_cons, subStyleGo, h]

theorem tryStyleMatch_none {s : List Char} (h : ¬ (styleChars <+: s)) :
    tryStyleMatch s = none := by
  unfold tryStyleMatch
  rw [if_neg (fun hb => h (isPrefixOf_true_iff.mp hb))]

theorem tryStyleMatch_hit {q : Char} {v : List Char} (b : List Char)
    (hq : quoteChar q = true) (hv : ∀ c ∈ v, (c == q) = false)
    (hnl : v.contains '\n' = false) :
    tryStyleMatch (styleChars ++ q :: (v ++ q :: b)) = some (q, v, b) := by
  unfold tryStyleMatch
  rw [if_pos (isPrefixOf_true_iff.mpr (List.prefix_append _ _))]
  rw [show (6 : Nat) = styleChars.length from by decide, List.drop_left]
  simp only [styleQuoteStep]
  rw [if_pos hq]
  rw [takeWhile_append_all (fun c hc => by simp [hv c hc])]
  rw [List.takeWhile_cons, if_neg (by simp), List.append_nil]
  rw [dropWhile_append_all (fun c hc => by simp [hv c hc])]
  rw [List.dropWhile_cons, if_neg (by simp)]
  simp only [styleValueStep]
  rw [if_neg (by simp only [hnl]; decide)]

/-- The inner style re.sub through a style-free block a followed by a
well-formed style attribute: a is kept, the attribute is replaced by its
_fix_style image, and the scan resumes after the closing quote. -/
theorem subStyle_scan :
    ∀ (a : List Char) {q : Char} {v b : List Char},
      ¬ (styleChars <:+: a) → quoteChar q = true →
      (∀ c ∈ v, (c == q) = false) → v.contains '\n' = false →
      subStyleAttr (a ++ (styleChars ++ q :: (v ++ q :: b))) =
        a ++ (fixStyle q v ++ subStyleAttr b) := by
  intro a
  induction a with
  | nil =>
    intro q v b _ hq hv hnl
    rw [List.nil_append, subStyle_step_some (tryStyleMatch_hit b hq hv hnl), List.nil_append]
  | cons c a2 ih =>
    intro q v b ha hq hv hnl
    have hnone : tryStyleMatch (c :: (a2 ++ (styleChars ++ q :: (v ++ q :: b)))) = none := by
      apply tryStyleMatch_none
      rw [← List.cons_append]
      exact not_prefix_straddle styleChars (c :: a2) _ styleChars_no_overlap ha (by simp)
    rw [List.cons_append, subStyle_step_none hnone]
    rw [ih (fun hi => ha (List.infix_cons_iff.mpr (Or.inr hi))) hq hv hnl]
    rw [List.cons_append]

theorem matchAttrsEnd_len {nm attrs l : List Char}
    {res : List Char × List Char × Bool × List Char}
    (h : matchAttrsEnd nm attrs l = some res) : res.2.2.2.length < l.length := by
  cases l with
  | nil => cases h
  | cons e rem =>
    simp only [matchAttrsEnd] at h
    by_cases he : (e == '>') = true
    · rw [if_pos he] at h
      injection h with h1
      rw [← h1]
      simp
    · rw [if_neg he] at h
      cases h

theorem matchSlashEnd_len {nm l : List Char}
    {res : List Char × List Char × Bool × List Char}
    (h : matchSlashEnd nm l = some res) : res.2.2.2.length < l.length := by
  cases l with
  | nil => cases h
  | cons e rem =>
    simp only [matchSlashEnd] at h
    by_cases he : (e == '>') = true
    · rw [if_pos he] at h
      injection h with h1
      rw [← h1]
      simp
    · rw [if_neg he] at h
      cases h

theorem matchAfterName_len {nm l : List Char}
    {res : List Char × List Char × Bool × List Char}
    (h : matchAfterName nm l = some res) : res.2.2.2.length < l.length := by
  cases l with
  | nil => cases h
  | cons d r3 =>
    simp only [matchAfterName] at h
    by_cases hd : pyIsSpace d = true
    · rw [if_pos hd] at h
      have h1 := matchAttrsEnd_len h
      have h2 := dropWhile_len_le (fun x => !(x == '>')) r3
      simp only [List.length_cons]
      omega
    · rw [if_neg hd] at h
      by_cases hgt : (d == '>') = true
      · rw [if_pos hgt] at h
        injection h with h1
        rw [← h1]
        simp
      · rw [if_neg hgt] at h
        by_cases hsl : (d == '/') = true
        · rw [if_pos hsl] at h
          have h1 := matchSlashEnd_len h
          simp only [List.length_cons]
          omega
        · rw [if_neg hsl] at h
          cases h

theorem matchTag_len {l : List Char} {res : List Char × List Char × Bool × List Char}
    (h : matchTag l = some res) : res.2.2.2.length < l.length := by
  cases l with
  | nil => cases h
  | cons c rest =>
    simp only [matchTag] at h
    by_cases hc : c.isAlpha = true
    · rw [if_pos hc] at h
      have h1 := matchAfterName_len h
      have h2 := dropWhile_len_le isTagChar rest
      simp only [List.length_cons]
      omega
    · rw [if_neg hc] at h
      cases h

theorem scanTagsGo_fuel :
    ∀ f1 f2 s, s.length ≤ f1 → s.length ≤ f2 → scanTagsGo f1 s = scanTagsGo f2 s := by
  intro f1
  induction f1 with
  | zero =>
    intro f2 s h1 h2
    have h0 : s = [] := List.length_eq_zero.mp (Nat.le_zero.mp h1)
    subst h0
    cases f2 with
    | zero => rfl
    | succ f => rfl
  | succ f ih =>
    intro f2 s h1 h2
    cases f2 with
    | zero =>
      have h0 : s = [] := List.length_eq_zero.mp (Nat.le_zero.mp h2)
      subst h0
      rfl
    | succ g =>
      cases s with
      | nil => rfl
      | cons c rest =>
        simp only [List.length_cons] at h1 h2
        by_cases hc : (c == '<') = true
        · cases hm : matchTag rest with
          | some res =>
            obtain ⟨nm, attrs, sl, rem⟩ := res
            have hr : rem.length < rest.length := matchTag_len hm
            simp only [scanTagsGo, hm, hc]
            simp only [if_true]
            rw [ih g rem (by omega) (by omega)]
          | none =>
            simp only [scanTagsGo, hm, hc]
            simp only [if_true]
            rw [ih g rest (by omega) (by omega)]
        · simp only [scanTagsGo]
          rw [if_neg hc, if_neg hc]
          rw [ih g rest (by omega) (by omega)]

theorem scanTags_step_match {c : Char} {rest nm attrs : List Char} {sl : Bool}
    {rem : List Char} (hc : c = '<') (hm : matchTag rest = some (nm, attrs, sl, rem)) :
    scanTags (c :: rest) = processTag nm attrs sl ++ scanTags rem := by
  subst hc
  have hr : rem.length < rest.length := matchTag_len hm
  unfold scanTags
  simp only [List.length_cons, scanTagsGo, hm]
  rw [if_pos (by decide)]
  rw [scanTagsGo_fuel rest.length rem.length rem (by omega) le_rfl]

theorem scanTags_step_nomatch {c : Char} {rest : List Char}
    (hm : c = '<' → matchTag rest = none) :
    scanTags (c :: rest) = c :: scanTags rest := by
  by_cases hc : (c == '<') = true
  · have hceq : c = '<' := eq_of_beq hc
    unfold scanTags
    simp only [List.length_cons, scanTagsGo, hm hceq]
    rw [if_pos hc]
  · unfold scanTags
    simp only [List.length_cons, scanTagsGo]
    rw [if_neg hc]

theorem scanTags_append_pre {pre : List Char}
    (h : ∀ c ∈ pre, (c == '<') = false) (t : List Char) :
    scanTags (pre ++ t) = pre ++ scanTags t := by
  induction pre with
  | nil => rfl
  | cons c p ih =>
    have hcne : (c == '<') = false := h c (List.mem_cons_self c p)
    have hm : c = '<' → matchTag (p ++ t) = none := by
      intro hceq
      subst hceq
      exact absurd hcne (by decide)
    rw [List.cons_append, scanTags_step_nomatch hm,
      ih (fun x hx => h x (List.mem_cons_of_mem c hx))]
    rfl

theorem hasSeq_iff (pat l : List Char) : hasSeq pat l = true ↔ pat <:+: l := by
  induction l with
  | nil =>
    constructor
    · intro h
      exact List.IsPrefix.isInfix (isPrefixOf_true_iff.mp h)
    · intro h
      have hl := List.IsInfix.length_le h
      simp only [List.length_nil, Nat.le_zero] at hl
      have hp : pat = [] := List.length_eq_zero.mp hl
      subst hp
      decide
  | cons c rest ih =>
    constructor
    · intro h
      have h2 : (List.isPrefixOf pat (c :: rest) || hasSeq pat rest) = true := h
      by_cases hq : List.isPrefixOf pat (c :: rest) = true
      · exact List.IsPrefix.isInfix (isPrefixOf_true_iff.mp hq)
      · have hq2 : List.isPrefixOf pat (c :: rest) = false := by
          cases hqq : List.isPrefixOf pat (c :: rest)
          · rfl
          · exact absurd hqq hq
        rw [hq2] at h2
        simp only [Bool.false_or] at h2
        exact List.infix_cons_iff.mpr (Or.inr (ih.mp h2))
    · intro h
      show (List.isPrefixOf pat (c :: rest) || hasSeq pat rest) = true
      rcases List.infix_cons_iff.mp h with h3 | h3
      · simp [isPrefixOf_true_iff.mpr h3]
      · simp [ih.mpr h3]

theorem matchTag_hit {c0 : Char} {nt attrs post : List Char}
    (hc0 : c0.isAlpha = true)
    (hnt : ∀ c ∈ nt, isTagChar c = true)
    (hsp : attrs = [] ∨ ∃ sp a2, attrs = sp :: a2 ∧ pyIsSpace sp = true)
    (hgt : ∀ c ∈ attrs, (c == '>') = false) :
    matchTag (c0 :: (nt ++ (attrs ++ '>' :: post))) =
      some (c0 :: nt, attrs, false, post) := by
  simp only [matchTag]
  rw [if_pos hc0]
  have hstop : ∀ x r, attrs ++ '>' :: post = x :: r → isTagChar x = false := by
    intro x r hx
    rcases hsp with h0 | ⟨sp, a2, hA, hS⟩
    · rw [h0] at hx
      simp only [List.nil_append] at hx
      injection hx with h1 _
      subst h1
      decide
    · rw [hA] at hx
      simp only [List.cons_append] at hx
      injection hx with h1 _
      subst h1
      exact space_not_tagChar sp hS
  cases hx : attrs ++ '>' :: post with
  | nil =>
    exfalso
    have h2 := congrArg List.length hx
    rw [List.length_append] at h2
    simp at h2
  | cons x r =>
    have hxTag : isTagChar x = false := hstop x r hx
    rw [takeWhile_append_all hnt, dropWhile_append_all hnt]
    rw [List.takeWhile_cons, if_neg (by simp [hxTag]), List.append_nil]
    rw [List.dropWhile_cons, if_neg (by simp [hxTag])]
    rcases hsp with h0 | ⟨sp, a2, hA, hS⟩
    · rw [h0] at hx
      simp only [List.nil_append] at hx
      injection hx with h1 h2
      subst h1
      subst h2
      simp only [matchAfterName]
      rw [if_neg (by decide), if_pos (by decide), h0]
    · rw [hA] at hx
      simp only [List.cons_append] at hx
      injection hx with h1 h2
      subst h1
      subst h2
      simp only [matchAfterName]
      rw [if_pos hS]
      have hga : ∀ c ∈ a2, (fun y => !(y == '>')) c = true := by
        intro c hc2
        have h3 := hgt c (by rw [hA]; exact List.mem_cons_of_mem sp hc2)
        simp [h3]
      rw [takeWhile_append_all hga, dropWhile_append_all hga]
      rw [List.takeWhile_cons, if_neg (by decide), List.append_nil]
      rw [List.dropWhile_cons, if_neg (by decide)]
      simp only [matchAttrsEnd]
      rw [if_pos (by decide), hA]

/-- Claim C5: the Markup Tag Rewriter leaves every heading start-tag
(local name h1 through h6 in any letter case, with or without a namespace
prefix before a colon) byte-identical, whatever its attribute text, font
declarations included; the rest of the document before and after the tag is
processed as usual. -/
theorem C5_heading_tags_unchanged :
    ∀ (pre : List Char) (c0 : Char) (nt attrs post : List Char),
      (∀ c ∈ pre, (c == '<') = false) →
      c0.isAlpha = true →
      (∀ c ∈ nt, isTagChar c = true) →
      (attrs = [] ∨ ∃ sp a2, attrs = sp :: a2 ∧ pyIsSpace sp = true) →
      (∀ c ∈ attrs, (c == '>') = false) →
      isHeadingName (localPart (c0 :: nt)) = true →
      strip_body_inline_fonts
          (String.mk (pre ++ '<' :: (c0 :: (nt ++ (attrs ++ '>' :: post))))) =
        String.mk (pre ++ '<' :: (c0 :: (nt ++ (attrs ++ '>' :: scanTags post)))) := by
  intro pre c0 nt attrs post hpre hc0 hnt hsp hgt hhead
  show String.mk (scanTags (pre ++ '<' :: (c0 :: (nt ++ (attrs ++ '>' :: post))))) = _
  apply congrArg String.mk
  rw [scanTags_append_pre hpre]
  have hm : matchTag (c0 :: (nt ++ (attrs ++ '>' :: post))) =
      some (c0 :: nt, attrs, false, post) := matchTag_hit hc0 hnt hsp hgt
  rw [scanTags_step_match rfl hm]
  unfold processTag
  rw [if_pos hhead]
  unfold rawTag
  simp [List.append_assoc]

/-- Witness for C5: a concrete h1 tag with an inline font-family style is
kept byte-identical. -/
theorem C5_heading_tags_unchanged_witness :
    strip_body_inline_fonts
        (String.mk ("text ".data ++ '<' :: ('h' :: ("1".data ++
          ((' ' :: "style=\"font-family:Arial\"".data) ++ '>' :: "Title".data))))) =
      String.mk ("text ".data ++ '<' :: ('h' :: ("1".data ++
          ((' ' :: "style=\"font-family:Arial\"".data) ++ '>' :: scanTags "Title".data)))) :=
  C5_heading_tags_unchanged _ _ _ _ _ (by decide) (by decide) (by decide)
    (Or.inr ⟨' ', "style=\"font-family:Arial\"".data, rfl, by decide⟩) (by decide) (by decide)

/-- Claim C1 (counterexample): on a non-heading tag with a style attribute
and font-family in the attribute text, the rewriter is not limited to the
style value: the space-run collapse alters the value of the title
attribute (title=(quote)font-family  x(quote) becomes a single space), so
non-style attributes are not byte-identical; and the output tag still
contains the substring font-family (inside the title value). -/
theorem C1_counterexample :
    strip_body_inline_fonts "<p title=\"font-family  x\" style=\"font-family:y;\">" =
      "<p title=\"font-family x\" >" ∧
    ¬ ("title=\"font-family  x\"".data <:+:
        (strip_body_inline_fonts
          "<p title=\"font-family  x\" style=\"font-family:y;\">").data) ∧
    (ffChars <:+:
        (strip_body_inline_fonts
          "<p title=\"font-family  x\" style=\"font-family:y;\">").data) := by
  refine ⟨by decide, by decide, by decide⟩

/-- Claim C1 (amended): for a non-heading start-tag whose attribute text
contains font-family and a well-formed style attribute (value without
newline, matching quotes), the rewriter replaces the style attribute by its
_fix_style image (the font-family-stripped value, or nothing when the strip
leaves it empty) and then collapses every run of two or more spaces in the
whole attribute text, so text outside the style value is preserved only up
to space-run collapsing, and font-family occurrences outside the style
value survive; everything before and after the tag is processed
independently. -/
theorem C1_markup_rewriter :
    ∀ (pre : List Char) (c0 sp q : Char) (nt a2 v b post : List Char),
      (∀ c ∈ pre, (c == '<') = false) →
      c0.isAlpha = true →
      (∀ c ∈ nt, isTagChar c = true) →
      pyIsSpace sp = true →
      (∀ c ∈ (sp :: a2) ++ (styleChars ++ q :: (v ++ q :: b)), (c == '>') = false) →
      isHeadingName (localPart (c0 :: nt)) = false →
      (ffChars <:+: (sp :: a2) ++ (styleChars ++ q :: (v ++ q :: b))) →
      ¬ (styleChars <:+: sp :: a2) →
      quoteChar q = true →
      (∀ c ∈ v, (c == q) = false) →
      v.contains '\n' = false →
      strip_body_inline_fonts
          (String.mk (pre ++ '<' :: (c0 :: (nt ++
            (((sp :: a2) ++ (styleChars ++ q :: (v ++ q :: b))) ++ '>' :: post))))) =
        String.mk (pre ++ '<' :: (c0 :: (nt ++
          (collapseSpaces ((sp :: a2) ++ (fixStyle q v ++ subStyleAttr b)) ++
            '>' :: scanTags post)))) := by
  intro pre c0 sp q nt a2 v b post hpre hc0 hnt hsp hgt hhead hff hnostyle hq hv hnl
  show String.mk (scanTags _) = _
  apply congrArg String.mk
  rw [scanTags_append_pre hpre]
  have hm : matchTag (c0 :: (nt ++
      (((sp :: a2) ++ (styleChars ++ q :: (v ++ q :: b))) ++ '>' :: post))) =
      some (c0 :: nt, (sp :: a2) ++ (styleChars ++ q :: (v ++ q :: b)), false, post) :=
    matchTag_hit hc0 hnt (Or.inr ⟨sp, a2 ++ (styleChars ++ q :: (v ++ q :: b)),
      by simp [List.cons_append], hsp⟩) hgt
  rw [scanTags_step_match rfl hm]
  unfold processTag
  rw [if_neg (by simp [hhead])]
  have hseq : hasSeq ffChars (sp :: (a2 ++ (styleChars ++ q :: (v ++ q :: b)))) = true :=
    (hasSeq_iff _ _).mpr hff
  rw [if_neg (by simp [hseq])]
  rw [subStyle_scan (sp :: a2) hnostyle hq hv hnl]
  simp [List.append_assoc]

/-- Witness for the amended C1: a concrete paragraph tag with an id
attribute and a font-family inline style. -/
theorem C1_markup_rewriter_witness :
    strip_body_inline_fonts
        (String.mk ("ab".data ++ '<' :: ('p' :: (([] : List Char) ++
          (((' ' :: "id=\"k\" ".data) ++
            (styleChars ++ dquoteC :: ("font-family:z".data ++ dquoteC :: ([] : List Char)))) ++
            '>' :: "cd".data))))) =
      String.mk ("ab".data ++ '<' :: ('p' :: (([] : List Char) ++
        (collapseSpaces ((' ' :: "id=\"k\" ".data) ++
          (fixStyle dquoteC "font-family:z".data ++ subStyleAttr ([] : List Char))) ++
          '>' :: scanTags "cd".data)))) :=
  C1_markup_rewriter _ _ _ _ _ _ _ _ _ (by decide) (by decide) (by decide) (by decide)
    (by decide) (by decide) (by decide) (by decide) (by decide) (by decide) (by decide)

theorem XmlF.indF {motive : XmlF → Prop} (hnil : motive XmlF.nil)
    (hcons : ∀ x xs, motive xs → motive (XmlF.cons x xs)) :
    ∀ l, motive l :=
  fun l => @XmlF.rec (fun _ => True) (fun f => motive f)
    (fun _ _ _ _ _ => trivial) hnil (fun x xs _ ih => hcons x xs ih) l

theorem toList_app (a b : XmlF) : (a.app b).toList = a.toList ++ b.toList := by
  induction a using XmlF.indF with
  | hnil => rfl
  | hcons x r ih => simp only [XmlF.app, XmlF.toList, ih, List.cons_append]

theorem updF_none_iff {p : XmlE → Bool} {f : XmlE → XmlE} :
    ∀ {l : XmlF}, updF p f l = none ↔ ∀ x ∈ l.toList, p x = false := by
  intro l
  induction l using XmlF.indF with
  | hnil => simp [updF, XmlF.toList]
  | hcons x xs ih =>
    simp only [updF, XmlF.toList]
    by_cases hx : p x = true
    · rw [if_pos hx]
      constructor
      · intro h; cases h
      · intro h
        exact absurd (h x (List.mem_cons_self x _)) (by simp [hx])
    · rw [if_neg hx]
      have hx2 : p x = false := by
        cases hpc : p x
        · rfl
        · exact absurd hpc hx
      constructor
      · intro h y hy
        rcases List.mem_cons.mp hy with h2 | h2
        · rw [h2]; exact hx2
        · cases hm : updF p f xs with
          | some m => rw [hm] at h; cases h
          | none => exact (ih.mp hm) y h2
      · intro h
        have hn : updF p f xs = none :=
          ih.mpr (fun y hy => h y (List.mem_cons_of_mem x hy))
        rw [hn]
        rfl

theorem updF_some_stable {p : XmlE → Bool} {f : XmlE → XmlE}
    (hp : ∀ x, p x = true → p (f x) = true)
    (hf : ∀ x, p x = true → f (f x) = f x) :
    ∀ {l l2 : XmlF}, updF p f l = some l2 → updF p f l2 = some l2 := by
  intro l
  induction l using XmlF.indF with
  | hnil => intro l2 h; cases h
  | hcons x xs ih =>
    intro l2 h
    simp only [updF] at h
    by_cases hx : p x = true
    · rw [if_pos hx] at h
      injection h with h2
      subst h2
      simp only [updF]
      rw [if_pos (hp x hx), hf x hx]
    · rw [if_neg hx] at h
      cases hm : updF p f xs with
      | none => rw [hm] at h; cases h
      | some m =>
        rw [hm] at h
        have h3 : some (XmlF.cons x m) = some l2 := h
        injection h3 with h4
        subst h4
        simp only [updF]
        rw [if_neg hx, ih hm]
        rfl

theorem updF_app_some {p : XmlE → Bool} {f : XmlE → XmlE} :
    ∀ {l l2 : XmlF} (z : XmlF), updF p f l = some l2 →
      updF p f (l.app z) = some (l2.app z) := by
  intro l
  induction l using XmlF.indF with
  | hnil => intro l2 z h; cases h
  | hcons x xs ih =>
    intro l2 z h
    simp only [updF] at h
    simp only [XmlF.app, updF]
    by_cases hx : p x = true
    · rw [if_pos hx] at h
      injection h with h2
      subst h2
      rw [if_pos hx]
      rfl
    · rw [if_neg hx] at h
      cases hm : updF p f xs with
      | none => rw [hm] at h; cases h
      | some m =>
        rw [hm] at h
        have h3 : some (XmlF.cons x m) = some l2 := h
        injection h3 with h4
        subst h4
        rw [if_neg hx, ih z hm]
        rfl

theorem updF_app_none {p : XmlE → Bool} {f : XmlE → XmlE} :
    ∀ {l : XmlF} (y : XmlE), updF p f l = none →
      updF p f (l.app (.cons y .nil)) =
        if p y then some (l.app (.cons (f y) .nil)) else none := by
  intro l
  induction l using XmlF.indF with
  | hnil =>
    intro y _
    simp only [XmlF.app, updF]
    by_cases hy : p y = true
    · rw [if_pos hy, if_pos hy]
    · rw [if_neg hy, if_neg hy]
      rfl
  | hcons x xs ih =>
    intro y h
    simp only [updF] at h
    by_cases hx : p x = true
    · rw [if_pos hx] at h
      cases h
    · rw [if_neg hx] at h
      have hn : updF p f xs = none := by
        cases hm : updF p f xs with
        | none => rfl
        | some m => rw [hm] at h; cases h
      simp only [XmlF.app, updF]
      rw [if_neg hx, ih y hn]
      by_cases hy : p y = true
      · rw [if_pos hy, if_pos hy]
        rfl
      · rw [if_neg hy, if_neg hy]
        rfl

theorem updF_mem {q : XmlE → Bool} {g : XmlE → XmlE} :
    ∀ {l m : XmlF}, updF q g l = some m →
      ∀ y ∈ m.toList, y ∈ l.toList ∨ ∃ x, x ∈ l.toList ∧ q x = true ∧ y = g x := by
  intro l
  induction l using XmlF.indF with
  | hnil => intro m h; cases h
  | hcons x xs ih =>
    intro m h y hy
    simp only [updF] at h
    by_cases hx : q x = true
    · rw [if_pos hx] at h
      injection h with h2
      subst h2
      simp only [XmlF.toList] at hy
      rcases List.mem_cons.mp hy with h3 | h3
      · exact Or.inr ⟨x, List.mem_cons_self x _, hx, h3⟩
      · exact Or.inl (List.mem_cons_of_mem x h3)
    · rw [if_neg hx] at h
      cases hm : updF q g xs with
      | none => rw [hm] at h; cases h
      | some m2 =>
        rw [hm] at h
        have h3 : some (XmlF.cons x m2) = some m := h
        injection h3 with h4
        subst h4
        simp only [XmlF.toList] at hy
        rcases List.mem_cons.mp hy with h5 | h5
        · exact Or.inl (by rw [h5]; exact List.mem_cons_self x _)
        · rcases ih hm y h5 with h6 | ⟨x2, hx2, hq2, hy2⟩
          · exact Or.inl (List.mem_cons_of_mem x h6)
          · exact Or.inr ⟨x2, List.mem_cons_of_mem x hx2, hq2, hy2⟩

theorem updF_none_transfer {p : XmlE → Bool} {f : XmlE → XmlE}
    {q : XmlE → Bool} {g : XmlE → XmlE}
    (hqg : ∀ x, q x = true → p (g x) = false) {l m : XmlF}
    (h1 : updF p f l = none) (h2 : updF q g l = some m) : updF p f m = none := by
  rw [updF_none_iff] at h1 ⊢
  intro y hy
  rcases updF_mem h2 y hy with h3 | ⟨x, _, hqx, hyx⟩
  · exact h1 y h3
  · rw [hyx]
    exact hqg x hqx

theorem updF_stable_transfer {p : XmlE → Bool} {f : XmlE → XmlE}
    {q : XmlE → Bool} {g : XmlE → XmlE}
    (hqp : ∀ x, q x = true → p x = false ∧ p (g x) = false) :
    ∀ {l m : XmlF}, updF q g l = some m → updF p f l = some l →
      updF p f m = some m := by
  intro l
  induction l using XmlF.indF with
  | hnil => intro m h; cases h
  | hcons x xs ih =>
    intro m h hs
    simp only [updF] at h hs
    by_cases hqx : q x = true
    · rw [if_pos hqx] at h
      injection h with h2
      subst h2
      have hpx : p x = false := (hqp x hqx).1
      have hpgx : p (g x) = false := (hqp x hqx).2
      rw [if_neg (by simp [hpx])] at hs
      have hxs : updF p f xs = some xs := by
        cases hm : updF p f xs with
        | none => rw [hm] at hs; cases hs
        | some m2 =>
          rw [hm] at hs
          have h3 : some (XmlF.cons x m2) = some (XmlF.cons x xs) := hs
          injection h3 with h4
          injection h4 with _ h5
          rw [h5]
      simp only [updF]
      rw [if_neg (by simp [hpgx]), hxs]
      rfl
    · rw [if_neg hqx] at h
      cases hm : updF q g xs with
      | none => rw [hm] at h; cases h
      | some m2 =>
        rw [hm] at h
        have h3 : some (XmlF.cons x m2) = some m := h
        injection h3 with h4
        subst h4
        by_cases hpx : p x = true
        · rw [if_pos hpx] at hs
          have h5 : some (XmlF.cons (f x) xs) = some (XmlF.cons x xs) := hs
          injection h5 with h6
          injection h6 with h7 _
          simp only [updF]
          rw [if_pos hpx, h7]
        · rw [if_neg hpx] at hs
          have hxs : updF p f xs = some xs := by
            cases hm2 : updF p f xs with
            | none => rw [hm2] at hs; cases hs
            | some m3 =>
              rw [hm2] at hs
              have h5 : some (XmlF.cons x m3) = some (XmlF.cons x xs) := hs
              injection h5 with h6
              injection h6 with _ h7
              rw [h7]
          simp only [updF]
          rw [if_neg hpx, ih hm hxs]
          rfl

theorem updF_found {p : XmlE → Bool} {f : XmlE → XmlE} :
    ∀ {l l2 : XmlF}, updF p f l = some l2 →
      ∃ x, x ∈ l.toList ∧ p x = true ∧ f x ∈ l2.toList := by
  intro l
  induction l using XmlF.indF with
  | hnil => intro l2 h; cases h
  | hcons x xs ih =>
    intro l2 h
    simp only [updF] at h
    by_cases hx : p x = true
    · rw [if_pos hx] at h
      injection h with h2
      subst h2
      exact ⟨x, List.mem_cons_self x _, hx, List.mem_cons_self (f x) _⟩
    · rw [if_neg hx] at h
      cases hm : updF p f xs with
      | none => rw [hm] at h; cases h
      | some m =>
        rw [hm] at h
        have h3 : some (XmlF.cons x m) = some l2 := h
        injection h3 with h4
        subst h4
        rcases ih hm with ⟨x2, hx2, hp2, hf2⟩
        exact ⟨x2, List.mem_cons_of_mem x hx2, hp2, List.mem_cons_of_mem x hf2⟩

theorem updF_mem_preserved {q : XmlE → Bool} {g : XmlE → XmlE} :
    ∀ {l m : XmlF}, updF q g l = some m →
      ∀ x ∈ l.toList, q x = false → x ∈ m.toList := by
  intro l
  induction l using XmlF.indF with
  | hnil => intro m h; cases h
  | hcons a as ih =>
    intro m h x hx hqx
    simp only [updF] at h
    by_cases ha : q a = true
    · rw [if_pos ha] at h
      injection h with h2
      subst h2
      rcases List.mem_cons.mp hx with h3 | h3
      · exact absurd (by rw [← h3] at ha; exact ha) (by simp [hqx])
      · exact List.mem_cons_of_mem _ h3
    · rw [if_neg ha] at h
      cases hm : updF q g as with
      | none => rw [hm] at h; cases h
      | some m2 =>
        rw [hm] at h
        have h3 : some (XmlF.cons a m2) = some m := h
        injection h3 with h4
        subst h4
        rcases List.mem_cons.mp hx with h5 | h5
        · rw [h5]; exact List.mem_cons_self a _
        · exact List.mem_cons_of_mem a (ih hm x h5 hqx)

theorem modify_opf_error {t : XmlE}
    (h : ∀ x ∈ t.children.toList, pMdOpf x = false ∧ pMdBare x = false) :
    modify_opf t = Except.error "No <metadata> element found in OPF file" := by
  cases t with
  | mk tg a tx cs =>
    have h1 : updF pMdOpf fixMetadata cs = none :=
      updF_none_iff.mpr (fun x hx => (h x hx).1)
    have h2 : updF pMdBare fixMetadata cs = none :=
      updF_none_iff.mpr (fun x hx => (h x hx).2)
    simp only [modify_opf]
    rw [h1, h2]

theorem opfPass_error {parse : String → XmlE} {ser : XmlE → String}
    {p : String} {msg : String} :
    ∀ {l : List ZEntry}, p ∈ l.map ZEntry.name →
      (∀ e ∈ l, e.name = p → modify_opf (parse e.data) = Except.error msg) →
      opfPass parse ser p l = Except.error msg := by
  intro l
  induction l with
  | nil => intro hm; cases hm
  | cons e rest ih =>
    intro hm hall
    simp only [opfPass]
    by_cases h : e.name = p
    · rw [if_pos (beq_iff_eq.mpr h)]
      rw [hall e (List.mem_cons_self e rest) h]
    · rw [if_neg (fun hb => h (eq_of_beq hb))]
      have hm2 : p ∈ rest.map ZEntry.name := by
        rcases List.mem_cons.mp hm with h2 | h2
        · exact absurd h2.symm h
        · exact h2
      rw [ih hm2 (fun x hx hn => hall x (List.mem_cons_of_mem e hx) hn)]

/-- Claim C7: a descriptor whose root has no metadata child, namespaced or
bare, makes modify_opf return the descriptive ValueError message rather
than a document, and when the located descriptor entries all parse to such
documents, process_epub propagates the error, so no output archive write
list is produced. -/
theorem C7_missing_metadata_fatal :
    (∀ t : XmlE, (∀ x ∈ t.children.toList, pMdOpf x = false ∧ pMdBare x = false) →
      modify_opf t = Except.error "No <metadata> element found in OPF file") ∧
    (∀ (parse : String → XmlE) (ser : XmlE → String) (z : List ZEntry) (p : String),
      find_opf_path parse z = some p →
      ((xhtmlPass (cssPass z)).map ZEntry.name).contains p = true →
      (∀ e ∈ xhtmlPass (cssPass z), e.name = p →
        ∀ x ∈ (parse e.data).children.toList, pMdOpf x = false ∧ pMdBare x = false) →
      process_epub parse ser z =
        Except.error "No <metadata> element found in OPF file") := by
  constructor
  · intro t h
    exact modify_opf_error h
  · intro parse ser z p hf hc hall
    have hmem : p ∈ (xhtmlPass (cssPass z)).map ZEntry.name := by simpa using hc
    have hop : opfPass parse ser p (xhtmlPass (cssPass z)) =
        Except.error "No <metadata> element found in OPF file" :=
      opfPass_error hmem (fun e he hn => modify_opf_error (hall e he hn))
    simp only [process_epub]
    rw [hf]
    simp only
    rw [if_pos hc, hop]

/-- Witness for C7 at a concrete archive whose descriptor parses to a
childless package element. -/
theorem C7_missing_metadata_fatal_witness :
    process_epub parseBad ser0 zBad =
      Except.error "No <metadata> element found in OPF file" := by
  refine C7_missing_metadata_fatal.2 parseBad ser0 zBad "content.opf" rfl rfl ?_
  intro e he hn x hx
  have hz : xhtmlPass (cssPass zBad) = [ZEntry.mk "content.opf" 8 "x"] := rfl
  rw [hz] at he
  have he2 : e = ZEntry.mk "content.opf" 8 "x" := List.mem_singleton.mp he
  subst he2
  have hx2 : x ∈ ([] : List XmlE) := hx
  cases hx2

theorem rootfilesFirst_opf {r : XmlE} {q : String}
    (h : rootfilesFirst r = some q) : endsWithS ".opf" q = true := by
  simp only [rootfilesFirst] at h
  rcases List.exists_of_findSome?_eq_some h with ⟨rf, _, hf⟩
  cases hga : getAttr "full-path" rf.attrs with
  | none => rw [hga] at hf; cases hf
  | some p2 =>
    rw [hga] at hf
    have hf2 : (if (!(p2 == "") && endsWithS ".opf" p2) = true
        then some p2 else none) = some q := hf
    by_cases hcond : (!(p2 == "") && endsWithS ".opf" p2) = true
    · rw [if_pos hcond] at hf2
      injection hf2 with h2
      subst h2
      exact (Bool.and_eq_true_iff.mp hcond).2
    · rw [if_neg hcond] at hf2
      cases hf2

/-- Claim C6: the Package Descriptor Locator tiers.  A successful container
lookup wins; when the container tier yields nothing (also when the pointer
entry is absent) the locator falls back to the first entry name ending in
.opf; every returned path ends in .opf; and a not-found locator result is
not an error: process_epub still returns an output write list. -/
theorem C6_locator_tiers :
    (∀ (parse : String → XmlE) (entries : List ZEntry) (q : String),
      containerLookup parse entries = some q →
      find_opf_path parse entries = some q) ∧
    (∀ (parse : String → XmlE) (entries : List ZEntry),
      containerLookup parse entries = none →
      find_opf_path parse entries =
        (entries.map ZEntry.name).find? (fun n => endsWithS ".opf" n)) ∧
    (∀ (parse : String → XmlE) (entries : List ZEntry) (p : String),
      find_opf_path parse entries = some p → endsWithS ".opf" p = true) ∧
    (∀ (parse : String → XmlE) (ser : XmlE → String) (z : List ZEntry),
      find_opf_path parse z = none →
      process_epub parse ser z = Except.ok (writeOut (xhtmlPass (cssPass z)))) := by
  refine ⟨?_, ?_, ?_, ?_⟩
  · intro parse entries q h
    simp only [find_opf_path]
    rw [h]
  · intro parse entries h
    simp only [find_opf_path]
    rw [h]
  · intro parse entries p h
    simp only [find_opf_path] at h
    cases hcl : containerLookup parse entries with
    | none =>
      rw [hcl] at h
      exact List.find?_some h
    | some q =>
      rw [hcl] at h
      injection h with h2
      subst h2
      simp only [containerLookup] at hcl
      by_cases hc : ((entries.map ZEntry.name).contains "META-INF/container.xml") = true
      · rw [if_pos hc] at hcl
        cases hre : readEntry entries "META-INF/container.xml" with
        | none => rw [hre] at hcl; cases hcl
        | some d =>
          rw [hre] at hcl
          exact rootfilesFirst_opf hcl
      · rw [if_neg hc] at hcl
        cases hcl
  · intro parse ser z h
    simp only [process_epub]
    rw [h]

/-- Witness for C6 at concrete archives: a container hit, a fallback hit,
the .opf suffix of the result, and a not-found run that still writes. -/
theorem C6_locator_tiers_witness :
    find_opf_path parseC zC = some "OEBPS/content.opf" ∧
    find_opf_path parse0 zTest =
      (zTest.map ZEntry.name).find? (fun n => endsWithS ".opf" n) ∧
    endsWithS ".opf" "content.opf" = true ∧
    process_epub parse0 ser0 [ZEntry.mk "a.txt" 0 "t"] =
      Except.ok (writeOut (xhtmlPass (cssPass [ZEntry.mk "a.txt" 0 "t"]))) :=
  ⟨C6_locator_tiers.1 parseC zC "OEBPS/content.opf" rfl,
   C6_locator_tiers.2.1 parse0 zTest rfl,
   C6_locator_tiers.2.2.1 parse0 zTest "content.opf" rfl,
   C6_locator_tiers.2.2.2 parse0 ser0 [ZEntry.mk "a.txt" 0 "t"] rfl⟩

theorem tag_setText (s : String) (x : XmlE) : (XmlE.setText s x).tag = x.tag := by
  cases x; rfl

theorem tag_setAttr (k v : String) (x : XmlE) : (XmlE.setAttr k v x).tag = x.tag := by
  cases x; rfl

theorem tag_fixMetadata (x : XmlE) : (fixMetadata x).tag = x.tag := by
  cases x; rfl

theorem text_setText (s : String) (x : XmlE) : (XmlE.setText s x).text = some s := by
  cases x; rfl

theorem attrs_setAttr (k v : String) (x : XmlE) :
    (XmlE.setAttr k v x).attrs = setA k v x.attrs := by
  cases x; rfl

theorem children_fixMetadata (x : XmlE) :
    (fixMetadata x).children = metaStep (langStep x.children) := by
  cases x; rfl

theorem setText_idem (s : String) (x : XmlE) :
    XmlE.setText s (XmlE.setText s x) = XmlE.setText s x := by
  cases x; rfl

theorem getAttr_setA_ne {k k2 : String} (h : (k == k2) = false) (v : String) :
    ∀ l, getAttr k2 (setA k v l) = getAttr k2 l := by
  intro l
  induction l with
  | nil => simp only [setA, getAttr]; rw [h]; rfl
  | cons a rest ih =>
    obtain ⟨a1, a2⟩ := a
    simp only [setA, getAttr]
    by_cases h1 : (a1 == k) = true
    · rw [if_pos h1]
      simp only [getAttr]
      rw [h]
      have h2 : a1 = k := eq_of_beq h1
      subst h2
      rw [h]
      rfl
    · rw [if_neg h1]
      simp only [getAttr]
      by_cases h2 : (a1 == k2) = true
      · rw [if_pos h2, if_pos h2]
      · rw [if_neg h2, if_neg h2]
        exact ih

theorem getAttr_setA_same (k v : String) : ∀ l, getAttr k (setA k v l) = some v := by
  intro l
  induction l with
  | nil =>
    simp only [setA, getAttr]
    rw [if_pos (beq_iff_eq.mpr rfl)]
  | cons a rest ih =>
    obtain ⟨a1, a2⟩ := a
    simp only [setA]
    by_cases h1 : (a1 == k) = true
    · rw [if_pos h1]
      simp only [getAttr]
      rw [if_pos (beq_iff_eq.mpr rfl)]
    · rw [if_neg h1]
      simp only [getAttr]
      rw [if_neg h1]
      exact ih

theorem setA_idem (k v : String) : ∀ l, setA k v (setA k v l) = setA k v l := by
  intro l
  induction l with
  | nil =>
    simp only [setA]
    rw [if_pos (beq_iff_eq.mpr rfl)]
  | cons a rest ih =>
    obtain ⟨a1, a2⟩ := a
    simp only [setA]
    by_cases h1 : (a1 == k) = true
    · rw [if_pos h1]
      simp only [setA]
      rw [if_pos (beq_iff_eq.mpr rfl)]
    · rw [if_neg h1]
      simp only [setA]
      rw [if_neg h1, ih]

theorem setAttr_idem (k v : String) (x : XmlE) :
    XmlE.setAttr k v (XmlE.setAttr k v x) = XmlE.setAttr k v x := by
  cases x with
  | mk t a tx cs => simp only [XmlE.setAttr, setA_idem]

theorem pOpfPW_false_of_tag {y : XmlE} (h : (y.tag == qn opfNS "meta") = false) :
    pOpfPW y = false := by
  simp only [pOpfPW]
  rw [h]
  exact Bool.false_and _

theorem pBarePW_false_of_tag {y : XmlE} (h : (y.tag == "meta") = false) :
    pBarePW y = false := by
  simp only [pBarePW]
  rw [h]
  exact Bool.false_and _

theorem pOpfPW_setAttr {k v : String} (hk : (k == "name") = false) {y : XmlE}
    (h : pOpfPW y = true) : pOpfPW (XmlE.setAttr k v y) = true := by
  simp only [pOpfPW] at h ⊢
  rw [tag_setAttr, attrs_setAttr, getAttr_setA_ne hk]
  exact h

theorem pBarePW_setAttr {k v : String} (hk : (k == "name") = false) {y : XmlE}
    (h : pBarePW y = true) : pBarePW (XmlE.setAttr k v y) = true := by
  simp only [pBarePW] at h ⊢
  rw [tag_setAttr, attrs_setAttr, getAttr_setA_ne hk]
  exact h

theorem pLang_setText (s : String) (y : XmlE) : pLang (XmlE.setText s y) = pLang y := by
  simp only [pLang, tag_setText]

theorem pLang_newLangElem : pLang newLangElem = true := by decide

theorem setText_newLangElem : XmlE.setText "zh-tw" newLangElem = newLangElem := rfl

theorem langStep_stable (cs : XmlF) :
    updF pLang (XmlE.setText "zh-tw") (langStep cs) = some (langStep cs) := by
  simp only [langStep]
  cases h : updF pLang (XmlE.setText "zh-tw") cs with
  | some l =>
    exact updF_some_stable
      (fun x hx => by rw [pLang_setText]; exact hx)
      (fun x _ => setText_idem "zh-tw" x) h
  | none =>
    rw [updF_app_none newLangElem h, if_pos pLang_newLangElem, setText_newLangElem]

theorem pLang_false_of_pOpfPW {x : XmlE} (h : pOpfPW x = true) :
    pLang x = false ∧
      pLang (XmlE.setAttr "content" "vertical-rl" x) = false := by
  have ht : x.tag = qn opfNS "meta" := eq_of_beq (Bool.and_eq_true_iff.mp h).1
  constructor
  · simp only [pLang, ht]
    decide
  · simp only [pLang, tag_setAttr, ht]
    decide

theorem pLang_false_of_pBarePW {x : XmlE} (h : pBarePW x = true) :
    pLang x = false ∧
      pLang (XmlE.setAttr "content" "vertical-rl" x) = false := by
  have ht : x.tag = "meta" := eq_of_beq (Bool.and_eq_true_iff.mp h).1
  constructor
  · simp only [pLang, ht]
    decide
  · simp only [pLang, tag_setAttr, ht]
    decide

theorem pLang_stable_metaStep {l : XmlF}
    (h : updF pLang (XmlE.setText "zh-tw") l = some l) :
    updF pLang (XmlE.setText "zh-tw") (metaStep l) = some (metaStep l) := by
  simp only [metaStep]
  cases h1 : updF pOpfPW (XmlE.setAttr "content" "vertical-rl") l with
  | some m =>
    exact @updF_stable_transfer pLang (XmlE.setText "zh-tw") pOpfPW
      (XmlE.setAttr "content" "vertical-rl") (fun x hx => pLang_false_of_pOpfPW hx) l m h1 h
  | none =>
    cases h2 : updF pBarePW (XmlE.setAttr "content" "vertical-rl") l with
    | some m =>
      exact @updF_stable_transfer pLang (XmlE.setText "zh-tw") pBarePW
        (XmlE.setAttr "content" "vertical-rl") (fun x hx => pLang_false_of_pBarePW hx) l m h2 h
    | none => exact updF_app_some (XmlF.cons newMetaElem XmlF.nil) h

theorem langStep_eq_of_stable {l : XmlF}
    (h : updF pLang (XmlE.setText "zh-tw") l = some l) : langStep l = l := by
  simp only [langStep]
  rw [h]

theorem pOpfPW_false_of_pBarePW {x : XmlE} (h : pBarePW x = true) :
    pOpfPW (XmlE.setAttr "content" "vertical-rl" x) = false := by
  have ht : x.tag = "meta" := eq_of_beq (Bool.and_eq_true_iff.mp h).1
  apply pOpfPW_false_of_tag
  rw [tag_setAttr, ht]
  decide

theorem pOpfPW_newMetaElem : pOpfPW newMetaElem = false := by decide

theorem pBarePW_newMetaElem : pBarePW newMetaElem = true := by decide

theorem setAttr_newMetaElem :
    XmlE.setAttr "content" "vertical-rl" newMetaElem = newMetaElem := rfl

theorem metaStep_metaStep (l : XmlF) : metaStep (metaStep l) = metaStep l := by
  cases h1 : updF pOpfPW (XmlE.setAttr "content" "vertical-rl") l with
  | some m =>
    have hml : metaStep l = m := by simp only [metaStep]; rw [h1]
    rw [hml]
    have hs : updF pOpfPW (XmlE.setAttr "content" "vertical-rl") m = some m :=
      updF_some_stable
        (fun x hx => pOpfPW_setAttr (by decide) hx)
        (fun x _ => setAttr_idem _ _ x) h1
    simp only [metaStep]
    rw [hs]
  | none =>
    cases h2 : updF pBarePW (XmlE.setAttr "content" "vertical-rl") l with
    | some m =>
      have hml : metaStep l = m := by simp only [metaStep]; rw [h1, h2]
      rw [hml]
      have hn : updF pOpfPW (XmlE.setAttr "content" "vertical-rl") m = none :=
        updF_none_transfer (fun x hx => pOpfPW_false_of_pBarePW hx) h1 h2
      have hs : updF pBarePW (XmlE.setAttr "content" "vertical-rl") m = some m :=
        updF_some_stable
          (fun x hx => pBarePW_setAttr (by decide) hx)
          (fun x _ => setAttr_idem _ _ x) h2
      simp only [metaStep]
      rw [hn, hs]
    | none =>
      have hml : metaStep l = l.app (XmlF.cons newMetaElem XmlF.nil) := by
        simp only [metaStep]
        rw [h1, h2]
      rw [hml]
      have hn : updF pOpfPW (XmlE.setAttr "content" "vertical-rl")
          (l.app (XmlF.cons newMetaElem XmlF.nil)) = none := by
        rw [updF_app_none newMetaElem h1, if_neg (by rw [pOpfPW_newMetaElem]; exact Bool.false_ne_true)]
      have hs : updF pBarePW (XmlE.setAttr "content" "vertical-rl")
          (l.app (XmlF.cons newMetaElem XmlF.nil)) =
          some (l.app (XmlF.cons newMetaElem XmlF.nil)) := by
        rw [updF_app_none newMetaElem h2, if_pos pBarePW_newMetaElem, setAttr_newMetaElem]
      simp only [metaStep]
      rw [hn, hs]

theorem fixMetadata_idem (x : XmlE) : fixMetadata (fixMetadata x) = fixMetadata x := by
  cases x with
  | mk t a tx cs =>
    simp only [fixMetadata]
    rw [langStep_eq_of_stable (pLang_stable_metaStep (langStep_stable cs)),
      metaStep_metaStep]

theorem pSpineOpf_setAttr (k v : String) {x : XmlE} (h : pSpineOpf x = true) :
    pSpineOpf (XmlE.setAttr k v x) = true := by
  simp only [pSpineOpf, tag_setAttr]
  exact h

theorem pSpineOpf_false_of_pSpineBare {x : XmlE} (h : pSpineBare x = true) :
    pSpineOpf (XmlE.setAttr "page-progression-direction" "rtl" x) = false := by
  have ht : x.tag = "spine" := eq_of_beq h
  simp only [pSpineOpf, tag_setAttr, ht]
  decide

theorem spineStep_spineStep (l : XmlF) : spineStep (spineStep l) = spineStep l := by
  cases h1 : updF pSpineOpf (XmlE.setAttr "page-progression-direction" "rtl") l with
  | some m =>
    have hml : spineStep l = m := by simp only [spineStep]; rw [h1]
    rw [hml]
    have hs : updF pSpineOpf (XmlE.setAttr "page-progression-direction" "rtl") m = some m :=
      updF_some_stable
        (fun x hx => pSpineOpf_setAttr _ _ hx)
        (fun x _ => setAttr_idem _ _ x) h1
    simp only [spineStep]
    rw [hs]
  | none =>
    cases h2 : updF pSpineBare (XmlE.setAttr "page-progression-direction" "rtl") l with
    | some m =>
      have hml : spineStep l = m := by simp only [spineStep]; rw [h1, h2]
      rw [hml]
      have hn : updF pSpineOpf (XmlE.setAttr "page-progression-direction" "rtl") m = none :=
        updF_none_transfer (fun x hx => pSpineOpf_false_of_pSpineBare hx) h1 h2
      have hs : updF pSpineBare (XmlE.setAttr "page-progression-direction" "rtl") m = some m :=
        updF_some_stable
          (fun x hx => by simp only [pSpineBare, tag_setAttr]; exact hx)
          (fun x _ => setAttr_idem _ _ x) h2
      simp only [spineStep]
      rw [hn, hs]
    | none =>
      have hml : spineStep l = l := by simp only [spineStep]; rw [h1, h2]
      rw [hml, hml]

theorem spineStep_stable_transfer {p : XmlE → Bool} {f : XmlE → XmlE}
    (ho : ∀ x, pSpineOpf x = true →
      p x = false ∧ p (XmlE.setAttr "page-progression-direction" "rtl" x) = false)
    (hb : ∀ x, pSpineBare x = true →
      p x = false ∧ p (XmlE.setAttr "page-progression-direction" "rtl" x) = false)
    {l : XmlF} (h : updF p f l = some l) :
    updF p f (spineStep l) = some (spineStep l) := by
  simp only [spineStep]
  cases h1 : updF pSpineOpf (XmlE.setAttr "page-progression-direction" "rtl") l with
  | some m =>
    exact @updF_stable_transfer p f pSpineOpf
      (XmlE.setAttr "page-progression-direction" "rtl") ho l m h1 h
  | none =>
    cases h2 : updF pSpineBare (XmlE.setAttr "page-progression-direction" "rtl") l with
    | some m =>
      exact @updF_stable_transfer p f pSpineBare
        (XmlE.setAttr "page-progression-direction" "rtl") hb l m h2 h
    | none => exact h

theorem spineStep_none_transfer {p : XmlE → Bool} {f : XmlE → XmlE}
    (ho : ∀ x, pSpineOpf x = true →
      p (XmlE.setAttr "page-progression-direction" "rtl" x) = false)
    (hb : ∀ x, pSpineBare x = true →
      p (XmlE.setAttr "page-progression-direction" "rtl" x) = false)
    {l : XmlF} (h : updF p f l = none) :
    updF p f (spineStep l) = none := by
  simp only [spineStep]
  cases h1 : updF pSpineOpf (XmlE.setAttr "page-progression-direction" "rtl") l with
  | some m => exact updF_none_transfer ho h h1
  | none =>
    cases h2 : updF pSpineBare (XmlE.setAttr "page-progression-direction" "rtl") l with
    | some m => exact updF_none_transfer hb h h2
    | none => exact h

theorem spineStep_mem {e : XmlE} {l : XmlF} (hm : e ∈ l.toList)
    (ho : pSpineOpf e = false) (hb : pSpineBare e = false) :
    e ∈ (spineStep l).toList := by
  simp only [spineStep]
  cases h1 : updF pSpineOpf (XmlE.setAttr "page-progression-direction" "rtl") l with
  | some m => exact updF_mem_preserved h1 e hm ho
  | none =>
    cases h2 : updF pSpineBare (XmlE.setAttr "page-progression-direction" "rtl") l with
    | some m => exact updF_mem_preserved h2 e hm hb
    | none => exact hm

theorem metaStep_mem {e : XmlE} {l : XmlF} (hm : e ∈ l.toList)
    (ho : pOpfPW e = false) (hb : pBarePW e = false) :
    e ∈ (metaStep l).toList := by
  simp only [metaStep]
  cases h1 : updF pOpfPW (XmlE.setAttr "content" "vertical-rl") l with
  | some m => exact updF_mem_preserved h1 e hm ho
  | none =>
    cases h2 : updF pBarePW (XmlE.setAttr "content" "vertical-rl") l with
    | some m => exact updF_mem_preserved h2 e hm hb
    | none =>
      rw [toList_app]
      exact List.mem_append_left _ hm

theorem langStep_found (cs : XmlF) :
    ∃ e ∈ (langStep cs).toList, pLang e = true ∧ e.text = some "zh-tw" := by
  simp only [langStep]
  cases h : updF pLang (XmlE.setText "zh-tw") cs with
  | some l =>
    rcases updF_found h with ⟨x, _, hpx, hfx⟩
    refine ⟨XmlE.setText "zh-tw" x, hfx, ?_, text_setText "zh-tw" x⟩
    rw [pLang_setText]
    exact hpx
  | none =>
    refine ⟨newLangElem, ?_, pLang_newLangElem, rfl⟩
    rw [toList_app]
    exact List.mem_append_right _ (List.mem_singleton.mpr rfl)

theorem metaStep_found (l : XmlF) :
    ∃ m ∈ (metaStep l).toList, (pOpfPW m || pBarePW m) = true ∧
      getAttr "content" m.attrs = some "vertical-rl" := by
  simp only [metaStep]
  cases h1 : updF pOpfPW (XmlE.setAttr "content" "vertical-rl") l with
  | some m =>
    rcases updF_found h1 with ⟨x, _, hpx, hfx⟩
    refine ⟨XmlE.setAttr "content" "vertical-rl" x, hfx, ?_, ?_⟩
    · rw [pOpfPW_setAttr (by decide) hpx]
      rfl
    · rw [attrs_setAttr, getAttr_setA_same]
  | none =>
    cases h2 : updF pBarePW (XmlE.setAttr "content" "vertical-rl") l with
    | some m =>
      rcases updF_found h2 with ⟨x, _, hpx, hfx⟩
      refine ⟨XmlE.setAttr "content" "vertical-rl" x, hfx, ?_, ?_⟩
      · rw [pBarePW_setAttr (by decide) hpx]
        exact Bool.or_true _
      · rw [attrs_setAttr, getAttr_setA_same]
    | none =>
      refine ⟨newMetaElem, ?_, ?_, rfl⟩
      · rw [toList_app]
        exact List.mem_append_right _ (List.mem_singleton.mpr rfl)
      · rw [pBarePW_newMetaElem]
        exact Bool.or_true _

theorem fixMetadata_target (x : XmlE) :
    (∃ e ∈ (fixMetadata x).children.toList, pLang e = true ∧ e.text = some "zh-tw") ∧
    (∃ m ∈ (fixMetadata x).children.toList, (pOpfPW m || pBarePW m) = true ∧
      getAttr "content" m.attrs = some "vertical-rl") := by
  rw [children_fixMetadata]
  constructor
  · rcases langStep_found x.children with ⟨e, he, hpl, ht⟩
    have htag : e.tag = qn dcNS "language" := eq_of_beq hpl
    refine ⟨e, metaStep_mem he ?_ ?_, hpl, ht⟩
    · exact pOpfPW_false_of_tag (by rw [htag]; decide)
    · exact pBarePW_false_of_tag (by rw [htag]; decide)
  · exact metaStep_found (langStep x.children)

theorem pMdOpf_fixMetadata {x : XmlE} (h : pMdOpf x = true) :
    pMdOpf (fixMetadata x) = true := by
  simp only [pMdOpf, tag_fixMetadata]
  exact h

theorem pMdBare_fixMetadata {x : XmlE} (h : pMdBare x = true) :
    pMdBare (fixMetadata x) = true := by
  simp only [pMdBare, tag_fixMetadata]
  exact h

theorem pMdOpf_false_of_bare (x : XmlE) (h : pMdBare x = true) :
    pMdOpf (fixMetadata x) = false := by
  have ht : x.tag = "metadata" := eq_of_beq h
  simp only [pMdOpf, tag_fixMetadata, ht]
  decide

theorem spineO_disj_mdOpf (x : XmlE) (h : pSpineOpf x = true) :
    pMdOpf x = false ∧
      pMdOpf (XmlE.setAttr "page-progression-direction" "rtl" x) = false := by
  have ht : x.tag = qn opfNS "spine" := eq_of_beq h
  exact ⟨by simp only [pMdOpf, ht]; decide,
    by simp only [pMdOpf, tag_setAttr, ht]; decide⟩

theorem spineB_disj_mdOpf (x : XmlE) (h : pSpineBare x = true) :
    pMdOpf x = false ∧
      pMdOpf (XmlE.setAttr "page-progression-direction" "rtl" x) = false := by
  have ht : x.tag = "spine" := eq_of_beq h
  exact ⟨by simp only [pMdOpf, ht]; decide,
    by simp only [pMdOpf, tag_setAttr, ht]; decide⟩

theorem spineO_disj_mdBare (x : XmlE) (h : pSpineOpf x = true) :
    pMdBare x = false ∧
      pMdBare (XmlE.setAttr "page-progression-direction" "rtl" x) = false := by
  have ht : x.tag = qn opfNS "spine" := eq_of_beq h
  exact ⟨by simp only [pMdBare, ht]; decide,
    by simp only [pMdBare, tag_setAttr, ht]; decide⟩

theorem spineB_disj_mdBare (x : XmlE) (h : pSpineBare x = true) :
    pMdBare x = false ∧
      pMdBare (XmlE.setAttr "page-progression-direction" "rtl" x) = false := by
  have ht : x.tag = "spine" := eq_of_beq h
  exact ⟨by simp only [pMdBare, ht]; decide,
    by simp only [pMdBare, tag_setAttr, ht]; decide⟩

/-- Claim C4 (amended): running the Package Descriptor Rewriter on its own
output reproduces that output exactly (language, writing-mode meta and
spine direction stable), and after each run some metadata child holds a
dc:language element with text zh-tw and a writing-mode meta with content
vertical-rl; but not exactly one of each: surplus pre-existing language or
meta elements are preserved, only the first is mutated. -/
theorem C4_descriptor_roundtrip :
    ∀ t t', modify_opf t = Except.ok t' →
      modify_opf t' = Except.ok t' ∧
      ∃ md ∈ t'.children.toList, (pMdOpf md || pMdBare md) = true ∧
        (∃ e ∈ md.children.toList, pLang e = true ∧ e.text = some "zh-tw") ∧
        (∃ m ∈ md.children.toList, (pOpfPW m || pBarePW m) = true ∧
          getAttr "content" m.attrs = some "vertical-rl") := by
  intro t t' h
  cases t with
  | mk tg a tx cs =>
    simp only [modify_opf] at h
    cases h1 : updF pMdOpf fixMetadata cs with
    | some cs1 =>
      rw [h1] at h
      have h2 : Except.ok (XmlE.mk tg a tx (spineStep cs1)) = Except.ok t' := h
      injection h2 with h3
      subst h3
      have hstab : updF pMdOpf fixMetadata cs1 = some cs1 :=
        updF_some_stable (fun x hx => pMdOpf_fixMetadata hx)
          (fun x _ => fixMetadata_idem x) h1
      have hstab2 : updF pMdOpf fixMetadata (spineStep cs1) = some (spineStep cs1) :=
        spineStep_stable_transfer spineO_disj_mdOpf spineB_disj_mdOpf hstab
      constructor
      · simp only [modify_opf]
        rw [hstab2]
        show Except.ok (XmlE.mk tg a tx (spineStep (spineStep cs1))) =
          Except.ok (XmlE.mk tg a tx (spineStep cs1))
        rw [spineStep_spineStep]
      · rcases updF_found h1 with ⟨x, _, hpx, hfx⟩
        have htagf : (fixMetadata x).tag = qn opfNS "metadata" := by
          rw [tag_fixMetadata]
          exact eq_of_beq hpx
        refine ⟨fixMetadata x, ?_, ?_, fixMetadata_target x⟩
        · simp only [XmlE.children]
          exact spineStep_mem hfx
            (by simp only [pSpineOpf, htagf]; decide)
            (by simp only [pSpineBare, htagf]; decide)
        · rw [pMdOpf_fixMetadata hpx]
          rfl
    | none =>
      rw [h1] at h
      cases h2 : updF pMdBare fixMetadata cs with
      | none =>
        rw [h2] at h
        cases h
      | some cs1 =>
        rw [h2] at h
        have h3 : Except.ok (XmlE.mk tg a tx (spineStep cs1)) = Except.ok t' := h
        injection h3 with h4
        subst h4
        have hnone : updF pMdOpf fixMetadata cs1 = none :=
          updF_none_transfer (fun x hx => pMdOpf_false_of_bare x hx) h1 h2
        have hnone2 : updF pMdOpf fixMetadata (spineStep cs1) = none :=
          spineStep_none_transfer (fun x hx => (spineO_disj_mdOpf x hx).2)
            (fun x hx => (spineB_disj_mdOpf x hx).2) hnone
        have hstab : updF pMdBare fixMetadata cs1 = some cs1 :=
          updF_some_stable (fun x hx => pMdBare_fixMetadata hx)
            (fun x _ => fixMetadata_idem x) h2
        have hstab2 : updF pMdBare fixMetadata (spineStep cs1) = some (spineStep cs1) :=
          spineStep_stable_transfer spineO_disj_mdBare spineB_disj_mdBare hstab
        constructor
        · simp only [modify_opf]
          rw [hnone2, hstab2]
          show Except.ok (XmlE.mk tg a tx (spineStep (spineStep cs1))) =
            Except.ok (XmlE.mk tg a tx (spineStep cs1))
          rw [spineStep_spineStep]
        · rcases updF_found h2 with ⟨x, _, hpx, hfx⟩
          have htagf : (fixMetadata x).tag = "metadata" := by
            rw [tag_fixMetadata]
            exact eq_of_beq hpx
          refine ⟨fixMetadata x, ?_, ?_, fixMetadata_target x⟩
          · simp only [XmlE.children]
            exact spineStep_mem hfx
              (by simp only [pSpineOpf, htagf]; decide)
              (by simp only [pSpineBare, htagf]; decide)
          · rw [pMdBare_fixMetadata hpx]
            exact Bool.or_true _

/-- Claim C4 (counterexample): a descriptor whose metadata holds two
dc:language children keeps both after the run, only the first retargeted
to zh-tw, so the output does not have exactly one language field. -/
theorem C4_counterexample :
    modify_opf tDup = Except.ok tDupOut ∧
    (descendantsAll tDupOut.children).countP (fun x => pLang x) = 2 := by
  constructor
  · rfl
  · rfl

/-- Witness for C4 at the concrete package tPkg: its output tPkgOut maps
to itself and exhibits the target language and writing-mode elements. -/
theorem C4_descriptor_roundtrip_witness :
    modify_opf tPkgOut = Except.ok tPkgOut ∧
    ∃ md ∈ tPkgOut.children.toList, (pMdOpf md || pMdBare md) = true ∧
      (∃ e ∈ md.children.toList, pLang e = true ∧ e.text = some "zh-tw") ∧
      (∃ m ∈ md.children.toList, (pOpfPW m || pBarePW m) = true ∧
        getAttr "content" m.attrs = some "vertical-rl") :=
  C4_descriptor_roundtrip tPkg tPkgOut rfl

theorem cssPass_proj (l : List ZEntry) :
    (cssPass l).map (fun e => (e.name, e.compress)) =
      l.map (fun e => (e.name, e.compress)) := by
  simp only [cssPass, List.map_map]
  refine List.map_congr_left (fun e _ => ?_)
  simp only [Function.comp_apply]
  by_cases h : endsWithS ".css" (lowerS e.name) = true
  · rw [if_pos h]
  · rw [if_neg h]

theorem xhtmlPass_proj (l : List ZEntry) :
    (xhtmlPass l).map (fun e => (e.name, e.compress)) =
      l.map (fun e => (e.name, e.compress)) := by
  simp only [xhtmlPass, List.map_map]
  refine List.map_congr_left (fun e _ => ?_)
  simp only [Function.comp_apply]
  by_cases h : isMarkupName e.name = true
  · rw [if_pos h]
  · rw [if_neg h]

theorem opfPass_proj {parse : String → XmlE} {ser : XmlE → String} {p : String} :
    ∀ {l l2 : List ZEntry}, opfPass parse ser p l = Except.ok l2 →
      l2.map (fun e => (e.name, e.compress)) =
        l.map (fun e => (e.name, e.compress)) := by
  intro l
  induction l with
  | nil =>
    intro l2 h
    simp only [opfPass] at h
    injection h with h2
    subst h2
    rfl
  | cons e rest ih =>
    intro l2 h
    simp only [opfPass] at h
    by_cases hn : (e.name == p) = true
    · rw [if_pos hn] at h
      cases hmo : modify_opf (parse e.data) with
      | error msg => rw [hmo] at h; cases h
      | ok t =>
        rw [hmo] at h
        cases hop : opfPass parse ser p rest with
        | error msg => rw [hop] at h; cases h
        | ok l3 =>
          rw [hop] at h
          have h2 : Except.ok (ZEntry.mk e.name e.compress (ser t) :: l3) =
              Except.ok l2 := h
          injection h2 with h3
          subst h3
          simp only [List.map_cons]
          rw [ih hop]
    · rw [if_neg hn] at h
      cases hop : opfPass parse ser p rest with
      | error msg => rw [hop] at h; cases h
      | ok l3 =>
        rw [hop] at h
        have h2 : Except.ok (e :: l3) = Except.ok l2 := h
        injection h2 with h3
        subst h3
        simp only [List.map_cons]
        rw [ih hop]

theorem nameProj {l1 l2 : List ZEntry}
    (h : l1.map (fun e => (e.name, e.compress)) =
      l2.map (fun e => (e.name, e.compress))) :
    l1.map ZEntry.name = l2.map ZEntry.name := by
  have h2 := congrArg (List.map Prod.fst) h
  rw [List.map_map, List.map_map] at h2
  exact h2

theorem filterProj {l1 : List ZEntry} :
    ∀ {l2 : List ZEntry},
      l1.map (fun e => (e.name, e.compress)) =
        l2.map (fun e => (e.name, e.compress)) →
      (l1.filter (fun e => !(e.name == "mimetype"))).map (fun e => (e.name, e.compress)) =
        (l2.filter (fun e => !(e.name == "mimetype"))).map (fun e => (e.name, e.compress)) := by
  induction l1 with
  | nil =>
    intro l2 h
    have h2 : l2 = [] := by
      cases l2 with
      | nil => rfl
      | cons b r => cases h
    subst h2
    rfl
  | cons a r1 ih =>
    intro l2 h
    cases l2 with
    | nil => cases h
    | cons b r2 =>
      simp only [List.map_cons] at h
      injection h with hab ht
      have hname : a.name = b.name := congrArg Prod.fst hab
      simp only [List.filter]
      rw [← hname]
      by_cases hp : (!(a.name == "mimetype")) = true
      · rw [hp]
        simp only [List.map_cons]
        rw [hab, ih ht]
      · have hp2 : (!(a.name == "mimetype")) = false := by
          cases hb : (!(a.name == "mimetype"))
          · rfl
          · exact absurd hb hp
        rw [hp2]
        exact ih ht

theorem writeOut_proj (l : List ZEntry) :
    (writeOut l).map (fun t => (t.1, t.2.1)) =
      if (l.map ZEntry.name).contains "mimetype" then
        ("mimetype", ZIP_STORED) ::
          (l.filter (fun e => !(e.name == "mimetype"))).map (fun e => (e.name, e.compress))
      else l.map (fun e => (e.name, e.compress)) := by
  simp only [writeOut]
  by_cases hc : ((l.map ZEntry.name).contains "mimetype") = true
  · rw [if_pos hc, if_pos hc]
    cases hfind : l.find? (fun e => e.name == "mimetype") with
    | some m =>
      show (("mimetype", ZIP_STORED, m.data) ::
          (l.filter (fun e => !(e.name == "mimetype"))).map
            (fun e => (e.name, e.compress, e.data))).map (fun t => (t.1, t.2.1)) = _
      simp only [List.map_cons, List.map_map]
      rfl
    | none =>
      exfalso
      have hmem : "mimetype" ∈ l.map ZEntry.name := by simpa using hc
      rcases List.mem_map.mp hmem with ⟨e, hel, hen⟩
      exact (List.find?_eq_none.mp hfind e hel) (beq_iff_eq.mpr hen)
  · rw [if_neg hc, if_neg hc, List.map_map]
    rfl

theorem writeOut_proj_trans {l z : List ZEntry}
    (h : l.map (fun e => (e.name, e.compress)) = z.map (fun e => (e.name, e.compress))) :
    (writeOut l).map (fun t => (t.1, t.2.1)) =
      if (z.map ZEntry.name).contains "mimetype" then
        ("mimetype", ZIP_STORED) ::
          (z.filter (fun e => !(e.name == "mimetype"))).map (fun e => (e.name, e.compress))
      else z.map (fun e => (e.name, e.compress)) := by
  rw [writeOut_proj, nameProj h, filterProj h, h]

/-- Claim C2: in every successful end-to-end run, the output write list,
projected to (name, compression), is: the input entry named mimetype moved
to the front with ZIP_STORED when one is present, followed by all other
entries in their original read order with their original compression; with
no mimetype entry, exactly the input order and compressions. -/
theorem C2_mimetype_first :
    ∀ (parse : String → XmlE) (ser : XmlE → String) (z : List ZEntry)
      (out : List (String × Nat × String)),
      process_epub parse ser z = Except.ok out →
      out.map (fun t => (t.1, t.2.1)) =
        if (z.map ZEntry.name).contains "mimetype" then
          ("mimetype", ZIP_STORED) ::
            (z.filter (fun e => !(e.name == "mimetype"))).map (fun e => (e.name, e.compress))
        else z.map (fun e => (e.name, e.compress)) := by
  intro parse ser z out h
  have hproj : (xhtmlPass (cssPass z)).map (fun e => (e.name, e.compress)) =
      z.map (fun e => (e.name, e.compress)) := by
    rw [xhtmlPass_proj, cssPass_proj]
  simp only [process_epub] at h
  cases hf : find_opf_path parse z with
  | none =>
    rw [hf] at h
    have h2 : Except.ok (writeOut (xhtmlPass (cssPass z))) = Except.ok out := h
    injection h2 with h3
    subst h3
    exact writeOut_proj_trans hproj
  | some p =>
    rw [hf] at h
    have h0 : (if (((xhtmlPass (cssPass z)).map ZEntry.name).contains p) = true then
        (match opfPass parse ser p (xhtmlPass (cssPass z)) with
          | Except.ok l => Except.ok (writeOut l)
          | Except.error msg => Except.error msg)
      else Except.ok (writeOut (xhtmlPass (cssPass z)))) = Except.ok out := h
    by_cases hc : (((xhtmlPass (cssPass z)).map ZEntry.name).contains p) = true
    · rw [if_pos hc] at h0
      cases hop : opfPass parse ser p (xhtmlPass (cssPass z)) with
      | error msg => rw [hop] at h0; cases h0
      | ok l2 =>
        rw [hop] at h0
        have h2 : Except.ok (writeOut l2) = Except.ok out := h0
        injection h2 with h3
        subst h3
        exact writeOut_proj_trans ((opfPass_proj hop).trans hproj)
    · rw [if_neg hc] at h0
      injection h0 with h3
      subst h3
      exact writeOut_proj_trans hproj

/-- Witness for C2 at the concrete archive zTest, whose mimetype entry sits
in the middle with compression 8 in the input. -/
theorem C2_mimetype_first_witness :
    ([("mimetype", 0, "application/epub+zip"), ("content.opf", 8, "serialized"),
        ("img.png", 0, "bin")] : List (String × Nat × String)).map
        (fun t => (t.1, t.2.1)) =
      if (zTest.map ZEntry.name).contains "mimetype" then
        ("mimetype", ZIP_STORED) ::
          (zTest.filter (fun e => !(e.name == "mimetype"))).map (fun e => (e.name, e.compress))
      else zTest.map (fun e => (e.name, e.compress)) :=
  C2_mimetype_first parse0 ser0 zTest
    [("mimetype", 0, "application/epub+zip"), ("content.opf", 8, "serialized"),
      ("img.png", 0, "bin")] rfl
